import Mathlib

/-!
Verification development for the dvm-miner worker node: a shallow embedding of
the vector engine (dvm_miner/engine.py), the protocol node handlers
(dvm_miner/node.py) and the serialization codec (shared/protocol/serialization.py),
together with proofs of the specified properties.

Modelling conventions:
* Python dicts are insertion-ordered association lists (dget / dset below).
* Python unbounded ints are Nat / Int; float32 vector components are exact
  rationals at the engine level, and raw 32-bit patterns at the codec level.
* The hnswlib ANN kernel and the zstandard compressor are out of scope of the
  specified core (spec §1, §6); they are modelled from the spec as an exact
  k-NN over the stored vectors and as an agreeing encoder/decoder pair.
-/

namespace DvmMiner

/-- Vector of components. The source stores float32 values; the model uses exact
rationals, since no claim in this development depends on float rounding. -/
abbrev Vec := List ℚ

/-- Lookup in a Python dict modelled as an insertion-ordered association list
(first matching key wins; keys are unique in any state a dict can reach). -/
def dget {α β : Type} [DecidableEq α] (m : List (α × β)) (k : α) : Option β :=
  match m with
  | [] => none
  | (k', v) :: rest => if k = k' then some v else dget rest k

/-- Python dict assignment m[k] = v: updates in place if the key exists,
otherwise appends, preserving insertion order. -/
def dset {α β : Type} [DecidableEq α] (m : List (α × β)) (k : α) (v : β) : List (α × β) :=
  match m with
  | [] => [(k, v)]
  | (k', v') :: rest => if k = k' then (k', v) :: rest else (k', v') :: dset rest k v

/-- Squared L2 norm. The zero-query test in engine.search
(np.linalg.norm(query) == 0) is equivalent to the squared norm being zero,
which avoids the square root that does not exist in ℚ. -/
def normSq (v : Vec) : ℚ := (v.map (fun x => x * x)).sum

def dotProduct (u v : Vec) : ℚ := ((u.zip v).map (fun p => p.1 * p.2)).sum

/-- Modelled from the spec: the ANN index kernel (hnswlib) is deliberately out
of scope and treated as an opaque index trait over cosine space (spec §1, §4.1).
Cosine distance over the unit-norm vectors the engine inserts is
1 - dot product; the square root needed for non-unit norms does not exist in ℚ.
No claim proved here depends on the numeric value of the distance. -/
def cosineDistance (q v : Vec) : ℚ := 1 - dotProduct q v

/-- Modelled from the spec: one hnswlib index, as the insertion-ordered list of
(internal id, stored vector) pairs; get_current_count is its length. -/
abbrev IndexItems := List (Nat × Vec)

/-- State owned by one shard. In the source these are three parallel dicts
(self.indices, self.id_maps, self.next_ids) keyed identically and always
updated together; the model merges them into one record per shard. -/
structure ShardState where
  index : IndexItems
  idMap : List (Nat × String)
  nextId : Nat
deriving DecidableEq, Repr

abbrev Shards := List (String × ShardState)

abbrev Colls := List (String × Shards)

/-- VectorEngine state: embedding_dim and max_ram_gb from construction plus the
per-collection per-shard storage. -/
structure Engine where
  embedding_dim : Nat
  max_ram_gb : Nat
  colls : Colls
deriving DecidableEq, Repr

/-- engine._normalize_shard_id: shard_id if shard_id else "default"
(None and the empty string are falsy). -/
def normalizeShardId (shard_id : Option String) : String :=
  match shard_id with
  | none => "default"
  | some s => if s = "" then "default" else s

/-- engine.get_total_vectors: sum of get_current_count over all shards of all
collections. -/
def get_total_vectors (e : Engine) : Nat :=
  (e.colls.map (fun cs => (cs.2.map (fun s => s.2.index.length)).sum)).sum

/-- engine.get_bytes_used: total_vectors * embedding_dim * 4. -/
def get_bytes_used (e : Engine) : Nat := get_total_vectors e * e.embedding_dim * 4

/-- self.max_bytes = max_ram_gb * 1024 ** 3, set in the constructor. -/
def max_bytes (e : Engine) : Nat := e.max_ram_gb * 1024 ^ 3

/-- engine.can_accept. -/
def can_accept (e : Engine) (num_vectors : Nat) : Bool :=
  decide (get_bytes_used e + num_vectors * e.embedding_dim * 4 ≤ max_bytes e)

/-- A numpy 2-D float32 array as passed to add_vectors; shape[0] is the row
count and shape[1] the declared width. -/
structure NDArray2 where
  shape1 : Nat
  rows : List Vec
deriving DecidableEq, Repr

/-- The two programmer errors raised by add_vectors (both ValueError in the
source, with distinct messages; the spec names them DimensionMismatch and
CountMismatch). -/
inductive EngineError where
  | dimensionMismatch
  | countMismatch
deriving DecidableEq, Repr

/-- Vector normalization before indexing. The source divides each row by its
L2 norm (zero rows are divided by 1 and stay zero); the square root does not
exist in ℚ, and no claim proved here depends on the stored magnitudes, so the
model keeps the rows as given. -/
def normalizeRows (rows : List Vec) : List Vec := rows

/-- Composition of the collection lookup and the shard lookup that engine.search
and add_vectors perform. -/
def lookupShard (e : Engine) (collection_id : String) (shard_id : Option String) :
    Option ShardState :=
  match dget e.colls collection_id with
  | none => none
  | some shards => dget shards (normalizeShardId shard_id)

/-- Writing a shard entry: the source first creates the empty per-collection
dicts when the collection is absent, then assigns the shard slot. -/
def setShard (colls : Colls) (c s : String) (st : ShardState) : Colls :=
  match dget colls c with
  | none => dset colls c [(s, st)]
  | some shards => dset colls c (dset shards s st)

/-- The freshly created shard (new hnswlib index, empty id map, counter 0). -/
def emptyShard : ShardState := ⟨[], [], 0⟩

/-- The mutation engine.add_vectors performs once both checks have passed:
the shard is created if absent, internal ids [next_id, next_id + n) are
assigned, the index and id map grow by the batch in order, and next_id
advances by n. -/
def addVectorsBody (e : Engine) (collection_id : String) (vectors : NDArray2)
    (doc_ids : List String) (shard_id : Option String) : Engine :=
  let ns := normalizeShardId shard_id
  let st := (lookupShard e collection_id shard_id).getD emptyShard
  let internal_ids := List.range' st.nextId doc_ids.length
  let st' : ShardState :=
    { index := st.index ++ internal_ids.zip (normalizeRows vectors.rows)
      idMap := (internal_ids.zip doc_ids).foldl (fun m p => dset m p.1 p.2) st.idMap
      nextId := st.nextId + doc_ids.length }
  { e with colls := setShard e.colls collection_id ns st' }

/-- engine.add_vectors. Both checks happen before any mutation, so a raised
error leaves the engine unchanged. -/
def add_vectors (e : Engine) (collection_id : String) (vectors : NDArray2)
    (doc_ids : List String) (shard_id : Option String) : Except EngineError Engine :=
  if vectors.shape1 ≠ e.embedding_dim then
    .error .dimensionMismatch
  else if doc_ids.length ≠ vectors.rows.length then
    .error .countMismatch
  else
    .ok (addVectorsBody e collection_id vectors doc_ids shard_id)

/-- Descending-score order used for the final results.sort(key=score,
reverse=True). -/
def scoreRel (a b : String × ℚ) : Prop := b.2 ≤ a.2

instance : DecidableRel scoreRel := fun a b => inferInstanceAs (Decidable (b.2 ≤ a.2))

instance : IsTotal (String × ℚ) scoreRel := ⟨fun a b => le_total b.2 a.2⟩

instance : IsTrans (String × ℚ) scoreRel := ⟨fun _ _ _ h1 h2 => le_trans h2 h1⟩

/-- Ascending-distance order of the candidates an ANN query returns. -/
def distRel (a b : Nat × ℚ) : Prop := a.2 ≤ b.2

instance : DecidableRel distRel := fun a b => inferInstanceAs (Decidable (a.2 ≤ b.2))

instance : IsTotal (Nat × ℚ) distRel := ⟨fun a b => le_total a.2 b.2⟩

instance : IsTrans (Nat × ℚ) distRel := ⟨fun _ _ _ h1 h2 => le_trans h1 h2⟩

/-- Modelled from the spec: index.knn_query of the opaque ANN kernel, as the
exact k nearest stored vectors by cosine distance, ties broken by insertion
order (the spec leaves tie order unspecified). It returns at most k
(label, distance) pairs in non-decreasing distance order. -/
def knnQuery (items : IndexItems) (q : Vec) (k : Nat) : List (Nat × ℚ) :=
  (List.insertionSort distRel (items.map (fun p => (p.1, cosineDistance q p.2)))).take k

/-- The per-candidate step of engine.search: doc_id = id_map.get(int(label));
if doc_id: results.append((doc_id, 1.0 - distance)). A label without a map
entry, or one mapped to the falsy empty string, contributes nothing. -/
def searchFilter (idMap : List (Nat × String)) (ld : Nat × ℚ) : Option (String × ℚ) :=
  match dget idMap ld.1 with
  | none => none
  | some doc_id => if doc_id = "" then none else some (doc_id, (1 : ℚ) - ld.2)

/-- engine.search: the early-return ladder (absent collection, absent shard,
k ≤ 0, empty index, zero-norm query), then the ANN query for
min(k, current_count) candidates, the id-map filter that drops unmapped labels
and falsy (empty) doc ids, and the final sort by score descending. The
function is total: none of these paths raises. -/
def searchE (e : Engine) (collection_id : String) (query_vector : Vec) (k : Int)
    (shard_id : Option String) : List (String × ℚ) :=
  match lookupShard e collection_id shard_id with
  | none => []
  | some st =>
    if k ≤ 0 then []
    else if st.index.length = 0 then []
    else if normSq query_vector = 0 then []
    else
      let cands := knnQuery st.index query_vector (min k.toNat st.index.length)
      List.insertionSort scoreRel (cands.filterMap (searchFilter st.idMap))

/-- A search_request as it reaches MinerNode._handle_search: the decoded query
stands in for query_b64/shape (the byte-level codec is modelled separately),
and topKField is none when the incoming message has no top_k member. -/
structure SearchRequestIn where
  request_id : String
  collection_id : String
  shard_id : Option String
  query : Vec
  topKField : Option Int

/-- Pydantic parsing of SearchRequest: the model declares top_k with
default 10, so an absent field parses to 10. -/
def parsedTopK (r : SearchRequestIn) : Int := r.topKField.getD 10

/-- k = getattr(request, "top_k", 50) in _handle_search: the parsed pydantic
model always carries the top_k attribute, so the 50 fallback never fires. -/
def handleSearchK (r : SearchRequestIn) : Int := parsedTopK r

/-- MinerNode._handle_search, reduced to the engine call it performs. -/
def handleSearch (e : Engine) (r : SearchRequestIn) : List (String × ℚ) :=
  searchE e r.collection_id r.query (handleSearchK r) r.shard_id

/-- One add_vectors invocation, for stating reachability of engine states. -/
structure AddOp where
  collection_id : String
  vectors : NDArray2
  doc_ids : List String
  shard_id : Option String

def emptyEngine (dim ram : Nat) : Engine := ⟨dim, ram, []⟩

/-- Apply a sequence of add_vectors calls starting from a fresh engine; a
raised error leaves the engine unchanged because both checks precede any
mutation. -/
def runOps (dim ram : Nat) (ops : List AddOp) : Engine :=
  ops.foldl
    (fun e op =>
      ((add_vectors e op.collection_id op.vectors op.doc_ids op.shard_id).toOption).getD e)
    (emptyEngine dim ram)

/-! SHA-256 (hashlib.sha256), over natural numbers reduced mod 2^32. -/

def w32 (n : Nat) : Nat := n % 4294967296

def rotr32 (n x : Nat) : Nat := ((x >>> n) ||| (x <<< (32 - n))) % 4294967296

def shaCh (x y z : Nat) : Nat := (x &&& y) ^^^ ((x ^^^ 4294967295) &&& z)

def shaMaj (x y z : Nat) : Nat := (x &&& y) ^^^ (x &&& z) ^^^ (y &&& z)

def bigSigma0 (x : Nat) : Nat := rotr32 2 x ^^^ rotr32 13 x ^^^ rotr32 22 x

def bigSigma1 (x : Nat) : Nat := rotr32 6 x ^^^ rotr32 11 x ^^^ rotr32 25 x

def smallSigma0 (x : Nat) : Nat := rotr32 7 x ^^^ rotr32 18 x ^^^ (x >>> 3)

def smallSigma1 (x : Nat) : Nat := rotr32 17 x ^^^ rotr32 19 x ^^^ (x >>> 10)

/-- The 64 SHA-256 round constants (FIPS 180-4 §4.2.2), in decimal. -/
def shaK : List Nat :=
  [1116352408, 1899447441, 3049323471, 3921009573, 961987163,
   1508970993, 2453635748, 2870763221, 3624381080, 310598401,
   607225278, 1426881987, 1925078388, 2162078206, 2614888103,
   3248222580, 3835390401, 4022224774, 264347078, 604807628,
   770255983, 1249150122, 1555081692, 1996064986, 2554220882,
   2821834349, 2952996808, 3210313671, 3336571891, 3584528711,
   113926993, 338241895, 666307205, 773529912, 1294757372,
   1396182291, 1695183700, 1986661051, 2177026350, 2456956037,
   2730485921, 2820302411, 3259730800, 3345764771, 3516065817,
   3600352804, 4094571909, 275423344, 430227734, 506948616,
   659060556, 883997877, 958139571, 1322822218, 1537002063,
   1747873779, 1955562222, 2024104815, 2227730452, 2361852424,
   2428436474, 2756734187, 3204031479, 3329325298]

/-- Big-endian bytes of a 32-bit word. -/
def beBytes4 (w : Nat) : List Nat :=
  [w / 16777216 % 256, w / 65536 % 256, w / 256 % 256, w % 256]

/-- Big-endian bytes of a 64-bit quantity (higher bits are masked off bytewise). -/
def beBytes8 (n : Nat) : List Nat :=
  [n / 72057594037927936 % 256, n / 281474976710656 % 256, n / 1099511627776 % 256,
   n / 4294967296 % 256, n / 16777216 % 256, n / 65536 % 256, n / 256 % 256, n % 256]

/-- SHA-256 padding: 0x80, zeros to 56 mod 64, then the 64-bit big-endian bit
length. -/
def shaPad (msg : List Nat) : List Nat :=
  msg ++ (128 :: List.replicate ((119 - msg.length % 64) % 64) 0) ++ beBytes8 (8 * msg.length)

/-- Group bytes into 32-bit big-endian words. -/
def bytesToWordsBE : List Nat → List Nat
  | b0 :: b1 :: b2 :: b3 :: rest => (((b0 * 256 + b1) * 256 + b2) * 256 + b3) :: bytesToWordsBE rest
  | _ => []

/-- Split a padded message into 64-byte blocks. -/
def toBlocks (l : List Nat) : List (List Nat) :=
  if _hnil : l = [] then [] else l.take 64 :: toBlocks (l.drop 64)
termination_by l.length
decreasing_by
  simp only [List.length_drop]
  cases l with
  | nil => exact absurd rfl _hnil
  | cons x xs => simp only [List.length_cons]; omega

/-- Message-schedule extension: acc holds the words produced so far, most
recent first. -/
def scheduleStep (acc : List Nat) : Nat → List Nat
  | 0 => acc
  | n + 1 =>
    scheduleStep
      (w32 (smallSigma1 (acc.getD 1 0) + acc.getD 6 0 + smallSigma0 (acc.getD 14 0) +
        acc.getD 15 0) :: acc) n

/-- The 64-entry message schedule of one block. -/
def shaW (block : List Nat) : List Nat := (scheduleStep (bytesToWordsBE block).reverse 48).reverse

/-- The eight SHA-256 working variables. -/
structure Sha8 where
  a : Nat
  b : Nat
  c : Nat
  d : Nat
  e : Nat
  f : Nat
  g : Nat
  h : Nat
deriving DecidableEq, Repr

/-- Initial hash value (FIPS 180-4 §5.3.3), in decimal. -/
def shaH0 : Sha8 :=
  ⟨1779033703, 3144134277, 1013904242, 2773480762,
   1359893119, 2600822924, 528734635, 1541459225⟩

def shaRound (s : Sha8) (kw : Nat × Nat) : Sha8 :=
  let t1 := w32 (s.h + bigSigma1 s.e + shaCh s.e s.f s.g + kw.1 + kw.2)
  let t2 := w32 (bigSigma0 s.a + shaMaj s.a s.b s.c)
  ⟨w32 (t1 + t2), s.a, s.b, s.c, w32 (s.d + t1), s.e, s.f, s.g⟩

def shaCompress (s : Sha8) (block : List Nat) : Sha8 :=
  let t := (shaK.zip (shaW block)).foldl shaRound s
  ⟨w32 (s.a + t.a), w32 (s.b + t.b), w32 (s.c + t.c), w32 (s.d + t.d),
   w32 (s.e + t.e), w32 (s.f + t.f), w32 (s.g + t.g), w32 (s.h + t.h)⟩

/-- hashlib.sha256(msg).digest() as a list of 32 bytes. -/
def sha256 (msg : List Nat) : List Nat :=
  let t := (toBlocks (shaPad msg)).foldl shaCompress shaH0
  beBytes4 t.a ++ beBytes4 t.b ++ beBytes4 t.c ++ beBytes4 t.d ++
    beBytes4 t.e ++ beBytes4 t.f ++ beBytes4 t.g ++ beBytes4 t.h

/-! Hex decoding (bytes.fromhex) and base64 (base64.b64encode / b64decode). -/

def hexVal (c : Char) : Option Nat :=
  if '0' ≤ c ∧ c ≤ '9' then some (c.toNat - 48)
  else if 'a' ≤ c ∧ c ≤ 'f' then some (c.toNat - 87)
  else if 'A' ≤ c ∧ c ≤ 'F' then some (c.toNat - 55)
  else none

/-- bytes.fromhex on a list of characters: pairs of hex digits. (The source
library also skips ASCII whitespace; the claims only concern well-formed
whitespace-free seeds, for which the two agree.) -/
def hexDecodePairs : List Char → Option (List Nat)
  | [] => some []
  | [_] => none
  | c1 :: c2 :: rest => do
      let hi ← hexVal c1
      let lo ← hexVal c2
      let tail ← hexDecodePairs rest
      some ((hi * 16 + lo) :: tail)

def hexDecode (s : String) : Option (List Nat) := hexDecodePairs s.data

/-- The base64 alphabet (RFC 4648, the one base64.b64encode uses). -/
def b64Alphabet : List Char :=
  ['A', 'B', 'C', 'D', 'E', 'F', 'G', 'H', 'I', 'J', 'K', 'L', 'M',
   'N', 'O', 'P', 'Q', 'R', 'S', 'T', 'U', 'V', 'W', 'X', 'Y', 'Z',
   'a', 'b', 'c', 'd', 'e', 'f', 'g', 'h', 'i', 'j', 'k', 'l', 'm',
   'n', 'o', 'p', 'q', 'r', 's', 't', 'u', 'v', 'w', 'x', 'y', 'z',
   '0', '1', '2', '3', '4', '5', '6', '7', '8', '9', '+', '/']

def b64Char (n : Nat) : Char := b64Alphabet.getD n 'A'

def b64Val (c : Char) : Nat := b64Alphabet.indexOf c

/-- base64.b64encode over bytes, producing the padded character stream. -/
def b64EncodeBytes : List Nat → List Char
  | a :: b :: c :: rest =>
    let w := a * 65536 + b * 256 + c
    b64Char (w / 262144) :: b64Char (w / 4096 % 64) :: b64Char (w / 64 % 64) ::
      b64Char (w % 64) :: b64EncodeBytes rest
  | [a, b] =>
    let w := a * 65536 + b * 256
    [b64Char (w / 262144), b64Char (w / 4096 % 64), b64Char (w / 64 % 64), '=']
  | [a] =>
    let w := a * 65536
    [b64Char (w / 262144), b64Char (w / 4096 % 64), '=', '=']
  | [] => []

/-- base64.b64decode on well-formed (encoder-produced) input: four characters
decode to three bytes, with the padded tail groups producing one or two. -/
def b64DecodeChars : List Char → List Nat
  | c1 :: c2 :: c3 :: c4 :: rest =>
    if c3 = '=' then
      [(b64Val c1 * 262144 + b64Val c2 * 4096) / 65536]
    else if c4 = '=' then
      let w := b64Val c1 * 262144 + b64Val c2 * 4096 + b64Val c3 * 64
      [w / 65536, w / 256 % 256]
    else
      let w := b64Val c1 * 262144 + b64Val c2 * 4096 + b64Val c3 * 64 + b64Val c4
      w / 65536 :: w / 256 % 256 :: w % 256 :: b64DecodeChars rest
  | _ => []

/-! MinerNode._handle_challenge. -/

/-- int.to_bytes(8, "big"): raises OverflowError when the integer is negative
or does not fit in eight bytes. -/
def toBytesBE8 (n : Int) : Except Unit (List Nat) :=
  if 0 ≤ n ∧ n < 18446744073709551616 then .ok (beBytes8 n.toNat) else .error ()

/-- The while-loop of _handle_challenge building one chunk: remaining is
chunk_size - len(chunk_data). A full digest extends the chunk by 32 bytes and
advances the offset by 32; a shorter remainder takes a digest prefix. The
fuel argument only bounds the iteration count for structural recursion: every
iteration consumes at least one byte of remaining, so starting the fuel at
the initial remaining (as buildChunk does) never exhausts it. -/
def buildChunkAux (epoch_seed : List Nat) : Nat → Int → Nat → Except Unit (List Nat)
  | 0, _, _ => .ok []
  | fuel + 1, current_offset, remaining =>
    match remaining with
    | 0 => .ok []
    | r + 1 =>
      match toBytesBE8 current_offset with
      | Except.error e2 => Except.error e2
      | Except.ok ob =>
        let hash_bytes := sha256 (epoch_seed ++ ob)
        if r + 1 ≥ 32 then
          match buildChunkAux epoch_seed fuel (current_offset + 32) (r + 1 - 32) with
          | Except.error e2 => Except.error e2
          | Except.ok rest => Except.ok (hash_bytes ++ rest)
        else
          Except.ok (hash_bytes.take (r + 1))

/-- One chunk for one offset; chunk_size ≤ 0 makes the loop body never run. -/
def buildChunk (epoch_seed : List Nat) (offset : Int) (chunk_size : Int) :
    Except Unit (List Nat) :=
  buildChunkAux epoch_seed chunk_size.toNat offset chunk_size.toNat

/-- A challenge_request as parsed by pydantic. -/
structure ChallengeRequestIn where
  challenge_id : String
  epoch_seed : String
  offsets : List Int
  chunk_size : Int
  deadline_ms : Int

/-- The response _handle_challenge sends. response_time_ms is wall-clock time,
outside the model; it is fixed at 0 here and no claim concerns it. -/
structure ChallengeResponseM where
  challenge_id : String
  chunks : List String
  response_time_ms : Nat
deriving DecidableEq, Repr

/-- The fallible body of MinerNode._handle_challenge: decode the hex seed,
then build one base64 chunk per offset in order, propagating the first raised
exception (bad hex, or an offset int.to_bytes cannot encode). -/
def challengeAttempt (m : ChallengeRequestIn) : Except Unit (List String) :=
  match hexDecode m.epoch_seed with
  | none => Except.error ()
  | some seed =>
    m.offsets.mapM (fun offset =>
      match buildChunk seed offset m.chunk_size with
      | Except.error e2 => Except.error e2
      | Except.ok bs => Except.ok (String.mk (b64EncodeBytes bs)))

/-- MinerNode._handle_challenge: any exception in the body is caught and
answered with an empty chunks list. -/
def handleChallenge (m : ChallengeRequestIn) : ChallengeResponseM :=
  match challengeAttempt m with
  | .ok chunks => ⟨m.challenge_id, chunks, 0⟩
  | .error _ => ⟨m.challenge_id, [], 0⟩

/-- The chunk construction in the words of claim C3 / spec §4.5: the byte
string of length chunk_size obtained by concatenating successive SHA-256
digests of epoch_seed followed by the big-endian uint64 of the current offset,
the offset starting at offset and advancing by 32 per digest. -/
def chunkPerSpec (epoch_seed : List Nat) (offset : Int) (chunk_size : Nat) : List Nat :=
  (List.flatten ((List.range ((chunk_size + 31) / 32)).map
    (fun i : Nat => sha256 (epoch_seed ++ beBytes8 (offset + 32 * (i : Int)).toNat)))).take
    chunk_size

/-! shared/protocol/serialization.py: encode_vectors / decode_vectors. -/

/-- Little-endian bytes of one 32-bit float pattern. -/
def leBytes4 (w : Nat) : List Nat := [w % 256, w / 256 % 256, w / 65536 % 256, w / 16777216 % 256]

/-- A numpy float32 2-D array at the byte level: each entry is the raw 32-bit
pattern of one float32. Bit-identity of the round trip is a byte-level
property, so the model never interprets the float values. -/
structure Float32Matrix where
  dim : Nat
  rows : List (List Nat)
deriving DecidableEq, Repr

/-- What numpy guarantees of a float32 array of shape (n, dim): rectangular
rows of the declared width, entries fitting 32 bits. -/
def wfFloat32 (V : Float32Matrix) : Prop :=
  (∀ r ∈ V.rows, r.length = V.dim) ∧ ∀ r ∈ V.rows, ∀ x ∈ r, x < 4294967296

/-- vectors.tobytes(): row-major little-endian float32 bytes. -/
def matBytes (V : Float32Matrix) : List Nat := V.rows.flatten.flatMap leBytes4

/-- Modelled from the spec: the zstandard compressor is outside the specified
core; the spec constrains the codec only to be an encoder/decoder pair that
agree (spec §6), modelled as the identity framing. -/
def zstdCompress (bs : List Nat) : List Nat := bs

/-- Modelled from the spec: inverse of zstdCompress; see there. -/
def zstdDecompress (bs : List Nat) : List Nat := bs

/-- encode_vectors: tobytes, compress, base64-encode; returns the text frame
and the array shape (n, dim). The input is float32 already, so the astype
branch is the identity. -/
def encode_vectors (V : Float32Matrix) : String × (Nat × Nat) :=
  (String.mk (b64EncodeBytes (zstdCompress (matBytes V))), (V.rows.length, V.dim))

/-- np.frombuffer(dtype=float32): consecutive groups of four little-endian
bytes. -/
def bytesToWordsLE : List Nat → List Nat
  | b0 :: b1 :: b2 :: b3 :: rest =>
    (b0 + b1 * 256 + b2 * 65536 + b3 * 16777216) :: bytesToWordsLE rest
  | _ => []

def buildRows {α : Type} : Nat → Nat → List α → List (List α)
  | 0, _, _ => []
  | n + 1, d, xs => xs.take d :: buildRows n d (xs.drop d)

/-- ndarray.reshape((n, d)): defined exactly when the element count matches
n * d (otherwise numpy raises). -/
def reshape2 {α : Type} (n d : Nat) (xs : List α) : Option (List (List α)) :=
  if xs.length = n * d then some (buildRows n d xs) else none

/-- decode_vectors: base64-decode, decompress, frombuffer (requires a whole
number of 4-byte elements, else numpy raises) and reshape to the carried
shape. Raising paths are modelled as none. -/
def decode_vectors (data_b64 : String) (shape : Nat × Nat) : Option Float32Matrix :=
  let vector_bytes := zstdDecompress (b64DecodeChars data_b64.data)
  if vector_bytes.length % 4 = 0 then
    (reshape2 shape.1 shape.2 (bytesToWordsLE vector_bytes)).map (fun rows => ⟨shape.2, rows⟩)
  else none

/-! Character-list helpers for the on-disk file names (engine.save_collection /
engine.load_all). File names are lists of characters; ids cross the boundary
via String.data / String.mk. -/

def startsWithL : List Char → List Char → Bool
  | [], _ => true
  | _ :: _, [] => false
  | p :: ps, c :: cs => p = c && startsWithL ps cs

def endsWithL (pat l : List Char) : Bool := startsWithL pat.reverse l.reverse

def hasSubstr (pat : List Char) : List Char → Bool
  | [] => startsWithL pat []
  | c :: rest => startsWithL pat (c :: rest) || hasSubstr pat rest

/-- Python str.replace(pat, "") scanning left to right over the leftmost
non-overlapping occurrences; an empty pattern leaves the string unchanged (the
source only removes the nonempty patterns "shard_" and ".bin"). The fuel
argument only bounds the iteration count for structural recursion: each step
consumes at least one character, so starting the fuel at the string length
(as removeAll does) never exhausts it. -/
def removeAllAux (pat : List Char) : Nat → List Char → List Char
  | 0, l => l
  | fuel + 1, l =>
    match l with
    | [] => []
    | c :: rest =>
      if pat ≠ [] ∧ startsWithL pat (c :: rest) = true then
        removeAllAux pat fuel ((c :: rest).drop pat.length)
      else
        c :: removeAllAux pat fuel rest

/-- str.replace(pat, "") over a character list. -/
def removeAll (pat l : List Char) : List Char := removeAllAux pat l.length l

/-- Path.stem on a name matching a *.bin glob: drops the trailing ".bin"
(the final dot-extension). -/
def stemBin (name : List Char) : List Char := name.take (name.length - 4)

/-- The shard id the loader reconstructs from a shard file name:
bin_path.stem.replace("shard_", "").replace(".bin", ""), which strips every
occurrence of the two patterns, not only the leading and trailing one. -/
def mangleShard (name : List Char) : List Char :=
  removeAll ".bin".data (removeAll "shard_".data (stemBin name))

/-- shard_<shard_id>.bin. -/
def shardBinName (s : String) : List Char := "shard_".data ++ s.data ++ ".bin".data

/-- shard_<shard_id>_map.json. -/
def shardMapName (s : String) : List Char := "shard_".data ++ s.data ++ "_map.json".data

/-! On-disk layout (spec §6), rooted at data_dir. -/

/-- The id-map JSON file {id_map: {...}, next_id: n}. The source serializes
the integer keys as decimal strings and parses them back with int(k); that
round trip is the identity on the Nat keys, so the model keeps them as Nat. -/
structure MapFile where
  id_map : List (Nat × String)
  next_id : Nat
deriving DecidableEq, Repr

/-- A file in the data directory: opaque index bytes written by
index.save_index (modelled as the index state itself, since the ANN kernel's
serializer is out of scope and faithful by the spec), or an id-map JSON. -/
inductive DiskFile where
  | bin : IndexItems → DiskFile
  | mapf : MapFile → DiskFile
deriving DecidableEq

/-- A root entry of data_dir: a plain file (legacy layout) or a collection
directory (current layout). -/
inductive RootEntry where
  | file : DiskFile → RootEntry
  | dir : List (List Char × DiskFile) → RootEntry
deriving DecidableEq

abbrev Disk := List (List Char × RootEntry)

/-- engine.save_collection for one collection: per shard, the index bytes and
the id-map JSON with {id_map, next_id}. -/
def saveCollectionFiles (shards : Shards) : List (List Char × DiskFile) :=
  shards.flatMap (fun p =>
    [(shardBinName p.1, DiskFile.bin p.2.index),
     (shardMapName p.1, DiskFile.mapf ⟨p.2.idMap, p.2.nextId⟩)])

/-- engine.save_all: one directory per collection, current layout only. The
theorems below quantify the save-then-load cycle over the files save_all
writes; unrelated pre-existing files in data_dir are outside the claims. -/
def saveAll (e : Engine) : Disk :=
  e.colls.map (fun p => (p.1.data, RootEntry.dir (saveCollectionFiles p.2)))

/-- One step of the legacy pass of engine.load_all over a root entry matching
the *.bin glob. load_index on a directory or on a JSON file raises before any
engine mutation, so those entries are skipped. A root index file whose
<stem>_map.json path exists but holds something json.load cannot parse would
raise after the index assignment in the source; that corner is unreachable
from a save_all-produced directory (which has no root files at all) and is
modelled as skipping the entry. -/
def legacyStep (root : Disk) (colls : Colls) (entry : List Char × RootEntry) : Colls :=
  if endsWithL ".bin".data entry.1 then
    match entry.2 with
    | RootEntry.file (DiskFile.bin idx) =>
      let collection_id := String.mk (stemBin entry.1)
      match dget root (stemBin entry.1 ++ "_map.json".data) with
      | some (RootEntry.file (DiskFile.mapf m)) =>
        setShard colls collection_id "default" ⟨idx, m.id_map, m.next_id⟩
      | none => setShard colls collection_id "default" ⟨idx, [], 0⟩
      | some _ => colls
    | _ => colls
  else colls

/-- The legacy (flat-file) pass of engine.load_all. -/
def legacyPass (root : Disk) (colls : Colls) : Colls := root.foldl (legacyStep root) colls

/-- One shard file inside a collection directory, dir pass of load_all: only
names matching the shard_*.bin glob load; the shard id is the mangled stem;
the id-map comes from shard_<mangled>_map.json when that file exists, else it
is empty with next_id 0. A map path holding index bytes would make json.load
raise after the index assignment; unreachable from save_all output (bin names
end in ".bin", the looked-up name ends in "_map.json") and modelled as a
skip. -/
def dirFileStep (c : String) (files : List (List Char × DiskFile)) (colls : Colls)
    (f : List Char × DiskFile) : Colls :=
  if startsWithL "shard_".data f.1 && endsWithL ".bin".data f.1 then
    match f.2 with
    | DiskFile.bin idx =>
      let shard_id := String.mk (mangleShard f.1)
      match dget files (shardMapName shard_id) with
      | some (DiskFile.mapf m) => setShard colls c shard_id ⟨idx, m.id_map, m.next_id⟩
      | none => setShard colls c shard_id ⟨idx, [], 0⟩
      | some (DiskFile.bin _) => colls
    | DiskFile.mapf _ => colls
  else colls

/-- The per-collection-directory pass of engine.load_all. -/
def dirPass (root : Disk) (colls : Colls) : Colls :=
  root.foldl
    (fun acc entry =>
      match entry.2 with
      | RootEntry.dir files => (files.foldl (dirFileStep (String.mk entry.1) files) acc)
      | RootEntry.file _ => acc)
    colls

/-- engine.load_all, as run by the constructor of a fresh engine on data_dir:
the legacy pass over root *.bin files, then the per-collection directories. -/
def loadAll (dim ram : Nat) (root : Disk) : Engine :=
  ⟨dim, ram, dirPass root (legacyPass root [])⟩

/-! Auxiliary definitions used by the theorems below. -/

/-- The id-assignment invariant of §8: every reachable shard's id-map keys are
exactly the internal ids 0, …, next_id - 1 in insertion order. -/
def EngineInv (e : Engine) : Prop :=
  ∀ c shards s st, dget e.colls c = some shards → dget shards s = some st →
    st.idMap.map Prod.fst = List.range' 0 st.nextId

/-- A concrete two-vector shard used to instantiate search theorems. -/
def stTwo : ShardState := ⟨[(0, [1]), (1, [2])], [(0, "a"), (1, "b")], 2⟩

/-- A two-vector engine used to instantiate search theorems. -/
def engTwo : Engine := ⟨1, 1, [("c1", [("default", stTwo)])]⟩

/-- An engine holding one vector stored under the empty doc id. -/
def engEmptyDoc : Engine := ⟨1, 1, [("c", [("default", ⟨[(0, [1])], [(0, "")], 1⟩)])]⟩

/-- The shard of the engine used to instantiate the persistence theorem. -/
def stSave : ShardState := ⟨[(0, [1])], [(0, "a")], 1⟩

/-- A one-shard engine used to instantiate the persistence theorem. -/
def engSave : Engine := ⟨1, 1, [("c1", [("s1", stSave)])]⟩

/-- An engine whose shard id contains "shard_", exhibiting the file-name
mangling of load_all. -/
def engMangle : Engine := ⟨1, 1, [("c", [("shard_x", ⟨[(0, [1])], [(0, "a")], 1⟩)])]⟩

/-- The dict representation invariant every engine the source can build
satisfies: collection keys are unique; every collection holds at least one
shard (collections are only ever created together with a shard); shard keys
are unique, and are outputs of _normalize_shard_id, hence nonempty; id-map
keys are unique and every mapped label was inserted into the index. -/
def RepOk (e : Engine) : Prop :=
  (e.colls.map Prod.fst).Nodup ∧
  ∀ p ∈ e.colls, p.2 ≠ [] ∧ (p.2.map Prod.fst).Nodup ∧
    ∀ q ∈ p.2, q.1 ≠ "" ∧ (q.2.idMap.map Prod.fst).Nodup ∧
      ∀ lv ∈ q.2.idMap, lv.1 ∈ q.2.index.map Prod.fst

/-- No shard id contains "shard_" or ".bin" as a substring, so the file-name
mangling of load_all recovers it exactly. -/
def CleanShardIds (e : Engine) : Prop :=
  ∀ p ∈ e.colls, ∀ q ∈ p.2,
    hasSubstr "shard_".data q.1.data = false ∧ hasSubstr ".bin".data q.1.data = false

/-- One concrete add_vectors batch, for instantiating the invariant theorem. -/
def opsW : List AddOp := [⟨"c", ⟨1, [[1], [2]]⟩, ["a", "b"], none⟩]

/-- The challenge of spec scenario 5 reduced to a one-byte seed. -/
def chalW : ChallengeRequestIn := ⟨"cid", "00", [0], 32, 1000⟩

/-- A challenge whose single offset does not fit in a uint64. -/
def chalBad : ChallengeRequestIn := ⟨"cid", "00", [18446744073709551616], 32, 1000⟩

/-- The shard state opsW produces. -/
def stW : ShardState := ⟨[(0, [1]), (1, [2])], [(0, "a"), (1, "b")], 2⟩

/-! General facts about the dict model. -/

theorem dget_dset_self {α β : Type} [DecidableEq α] (m : List (α × β)) (k : α) (v : β) :
    dget (dset m k v) k = some v := by
  induction m with
  | nil => simp [dget, dset]
  | cons p rest ih =>
    obtain ⟨k', v'⟩ := p
    by_cases h : k = k'
    · simp [dget, dset, h]
    · simp [dget, dset, h, ih]

theorem dget_dset_ne {α β : Type} [DecidableEq α] (m : List (α × β)) (k k0 : α) (v : β)
    (h : k0 ≠ k) : dget (dset m k v) k0 = dget m k0 := by
  induction m with
  | nil => simp [dget, dset, h]
  | cons p rest ih =>
    obtain ⟨k', v'⟩ := p
    by_cases hk : k = k'
    · subst hk; simp [dget, dset, h]
    · by_cases hk0 : k0 = k'
      · simp [dget, dset, hk, hk0]
      · simp [dget, dset, hk, hk0, ih]

theorem dset_append_of_dget_none {α β : Type} [DecidableEq α] (m : List (α × β)) (k : α)
    (v : β) (h : dget m k = none) : dset m k v = m ++ [(k, v)] := by
  induction m with
  | nil => simp [dset]
  | cons p rest ih =>
    obtain ⟨k', v'⟩ := p
    by_cases hk : k = k'
    · simp [dget, hk] at h
    · simp [dget, hk] at h
      simp [dset, hk, ih h]

theorem dget_none_iff_keys {α β : Type} [DecidableEq α] (m : List (α × β)) (k : α) :
    dget m k = none ↔ k ∉ m.map Prod.fst := by
  induction m with
  | nil => simp [dget]
  | cons p rest ih =>
    obtain ⟨k', v'⟩ := p
    by_cases hk : k = k'
    · simp [dget, hk]
    · simp [dget, hk, ih]

theorem dget_eq_some_of_mem_nodup {α β : Type} [DecidableEq α] (m : List (α × β)) (k : α)
    (v : β) (hnd : (m.map Prod.fst).Nodup) (hm : (k, v) ∈ m) : dget m k = some v := by
  induction m with
  | nil => cases hm
  | cons p rest ih =>
    obtain ⟨k', v'⟩ := p
    simp only [List.map_cons, List.nodup_cons] at hnd
    rcases List.mem_cons.mp hm with h | h
    · injection h with h1 h2
      simp [dget, h1, h2]
    · have hk : k ≠ k' := by
        rintro rfl
        exact hnd.1 (List.mem_map.mpr ⟨(k, v), h, rfl⟩)
      simp [dget, hk, ih hnd.2 h]

/-! Claim theorems. -/

/-- C4: can_accept(n) returns true iff bytes_used + n·D·4 ≤ max_bytes with
max_bytes = max_ram_gb·2^30, and equivalently it returns false iff
(total_vectors + n)·D·4 > max_bytes. -/
theorem can_accept_iff (e : Engine) (n : Nat) :
    (can_accept e n = true ↔
      get_bytes_used e + n * e.embedding_dim * 4 ≤ e.max_ram_gb * 2 ^ 30) ∧
    (can_accept e n = false ↔
      e.max_ram_gb * 2 ^ 30 < (get_total_vectors e + n) * e.embedding_dim * 4) := by
  have hmb : max_bytes e = e.max_ram_gb * 2 ^ 30 := by norm_num [max_bytes]
  have key : (get_total_vectors e + n) * e.embedding_dim * 4
      = get_bytes_used e + n * e.embedding_dim * 4 := by
    simp only [get_bytes_used]
    ring
  constructor
  · rw [← hmb]
    simp [can_accept]
  · rw [← hmb, key]
    simp [can_accept, not_le]

/-- C1 counterexample: a search_request whose message has no top_k member is
handled with k = 10 (the SearchRequest pydantic default), not with 50; the
getattr fallback of 50 in _handle_search is dead because the parsed model
always carries the attribute. -/
theorem handleSearchK_absent_is_ten :
    handleSearchK ⟨"r", "c", none, [1], none⟩ = 10 ∧ (10 : Int) ≠ 50 :=
  ⟨rfl, by decide⟩

/-- C1 (amended): the search handler always invokes the engine search with
k equal to the parsed request's top_k, and an incoming message without a
top_k field is searched with the SearchRequest default k = 10. -/
theorem handleSearch_k_eq_topK (e : Engine) (r : SearchRequestIn) :
    handleSearch e r = searchE e r.collection_id r.query (parsedTopK r) r.shard_id ∧
    (r.topKField = none → handleSearchK r = 10) := by
  refine ⟨rfl, fun h => ?_⟩
  simp [handleSearchK, parsedTopK, h]

/-- Witness for handleSearch_k_eq_topK at a concrete absent-top_k request. -/
theorem handleSearch_k_eq_topK_witness :
    handleSearch (emptyEngine 4 1) ⟨"r", "c", none, [1], none⟩ =
      searchE (emptyEngine 4 1) "c" [1] (parsedTopK ⟨"r", "c", none, [1], none⟩) none ∧
    handleSearchK ⟨"r", "c", none, [1], none⟩ = 10 :=
  ⟨(handleSearch_k_eq_topK (emptyEngine 4 1) ⟨"r", "c", none, [1], none⟩).1,
   (handleSearch_k_eq_topK (emptyEngine 4 1) ⟨"r", "c", none, [1], none⟩).2 rfl⟩

/-- C7 counterexample: on a batch with both a width mismatch and a count
mismatch, add_vectors raises the dimension error, so the count clause of the
claim does not hold unconditionally. -/
theorem add_vectors_both_mismatches :
    (["a", "b"] : List String).length ≠ ((⟨3, [[1, 1, 1]]⟩ : NDArray2)).rows.length ∧
    add_vectors (emptyEngine 4 1) "c" ⟨3, [[1, 1, 1]]⟩ ["a", "b"] none =
      Except.error EngineError.dimensionMismatch ∧
    (Except.error EngineError.dimensionMismatch : Except EngineError Engine) ≠
      Except.error EngineError.countMismatch := by
  refine ⟨by decide, rfl, ?_⟩
  simp

/-- C7 (amended): add_vectors fails synchronously with DimensionMismatch
whenever the vector width differs from the configured dimension D, and fails
synchronously with CountMismatch whenever the width matches D but the doc_ids
count differs from the vector count n (the dimension check runs first, so a
batch failing both raises DimensionMismatch). -/
theorem add_vectors_mismatch_errors (e : Engine) (c : String) (v : NDArray2)
    (ds : List String) (s : Option String) :
    (v.shape1 ≠ e.embedding_dim →
      add_vectors e c v ds s = Except.error EngineError.dimensionMismatch) ∧
    (v.shape1 = e.embedding_dim → ds.length ≠ v.rows.length →
      add_vectors e c v ds s = Except.error EngineError.countMismatch) := by
  constructor
  · intro h
    simp [add_vectors, h]
  · intro h1 h2
    simp [add_vectors, h1, h2]

/-- Witness for add_vectors_mismatch_errors on concrete mismatching batches. -/
theorem add_vectors_mismatch_errors_witness :
    add_vectors (emptyEngine 4 1) "c" ⟨3, [[1, 1, 1]]⟩ ["a"] none =
      Except.error EngineError.dimensionMismatch ∧
    add_vectors (emptyEngine 4 1) "c" ⟨4, [[1, 1, 1, 1]]⟩ ["a", "b"] none =
      Except.error EngineError.countMismatch :=
  ⟨(add_vectors_mismatch_errors (emptyEngine 4 1) "c" ⟨3, [[1, 1, 1]]⟩ ["a"] none).1
      (by decide),
   (add_vectors_mismatch_errors (emptyEngine 4 1) "c" ⟨4, [[1, 1, 1, 1]]⟩ ["a", "b"] none).2
      (by decide) (by decide)⟩

/-- Helper: the early-return ladder of engine.search yields the empty list. -/
theorem searchE_nil_of_cases (e : Engine) (c : String) (q : Vec) (k : Int) (s : Option String)
    (h : lookupShard e c s = none ∨ k ≤ 0 ∨
      (∃ st, lookupShard e c s = some st ∧ st.index = []) ∨ normSq q = 0) :
    searchE e c q k s = [] := by
  rcases hls : lookupShard e c s with _ | st
  · simp [searchE, hls]
  · rcases h with h | h | ⟨st', hst', hidx⟩ | h
    · rw [hls] at h
      cases h
    · simp [searchE, hls, h]
    · rw [hls] at hst'
      injection hst' with he
      subst he
      simp [searchE, hls, hidx]
    · simp [searchE, hls, h]

/-- Helper: on the main path, engine.search is the sorted, id-map-filtered
candidate list. -/
theorem searchE_main_eq (e : Engine) (c : String) (q : Vec) (k : Int) (s : Option String)
    (st : ShardState) (hst : lookupShard e c s = some st) (hk : ¬ k ≤ 0)
    (hlen : ¬ st.index.length = 0) (hq : ¬ normSq q = 0) :
    searchE e c q k s = List.insertionSort scoreRel
      ((knnQuery st.index q (min k.toNat st.index.length)).filterMap
        (searchFilter st.idMap)) := by
  simp [searchE, hst, hk, hlen, hq]

/-- Helper: what a successful searchFilter step tells about the hit. -/
theorem searchFilter_eq_some (idMap : List (Nat × String)) (ld : Nat × ℚ) (p : String × ℚ)
    (h : searchFilter idMap ld = some p) :
    p.1 ≠ "" ∧ dget idMap ld.1 = some p.1 ∧ p.2 = 1 - ld.2 := by
  unfold searchFilter at h
  rcases hd : dget idMap ld.1 with _ | doc
  · rw [hd] at h
    cases h
  · rw [hd] at h
    by_cases hdoc : doc = ""
    · simp [hdoc] at h
    · simp only [if_neg hdoc] at h
      injection h with hp
      rw [← hp]
      exact ⟨hdoc, rfl, rfl⟩

/-- C8: search returns the empty list, without raising (the embedded search is
a total function), whenever the collection is absent, the addressed shard is
absent, k ≤ 0, the shard's index is empty, or the query has zero L2 norm. -/
theorem search_empty_cases (e : Engine) (c : String) (q : Vec) (k : Int) (s : Option String)
    (h : lookupShard e c s = none ∨ k ≤ 0 ∨
      (∃ st, lookupShard e c s = some st ∧ st.index = []) ∨ normSq q = 0) :
    searchE e c q k s = [] :=
  searchE_nil_of_cases e c q k s h

/-- Witness for search_empty_cases on an empty engine. -/
theorem search_empty_cases_witness : searchE (emptyEngine 4 1) "c" [1] 5 none = [] :=
  search_empty_cases (emptyEngine 4 1) "c" [1] 5 none (Or.inl rfl)

/-! The id-assignment invariant (claim C6). -/

theorem foldl_dset_keys (ds : List String) :
    ∀ (m : List (Nat × String)) (start : Nat), m.map Prod.fst = List.range' 0 start →
      (((List.range' start ds.length).zip ds).foldl
          (fun m2 p => dset m2 p.1 p.2) m).map Prod.fst
        = List.range' 0 (start + ds.length) := by
  induction ds with
  | nil =>
    intro m start h
    simp only [List.length_nil, List.range'_zero, List.zip_nil_left, List.foldl_nil,
      Nat.add_zero]
    exact h
  | cons d ds ih =>
    intro m start h
    have hfresh : dget m start = none := by
      rw [dget_none_iff_keys, h]
      intro hmem
      rw [List.mem_range'] at hmem
      omega
    have hsnoc : List.range' 0 start ++ [start] = List.range' 0 (start + 1) := by
      have h2 := List.range'_append 0 start 1 1
      rw [show 1 + start = start + 1 from by omega] at h2
      simpa using h2
    simp only [List.length_cons, List.range'_succ, List.zip_cons_cons, List.foldl_cons]
    rw [dset_append_of_dget_none m start d hfresh]
    have hkeys : (m ++ [(start, d)]).map Prod.fst = List.range' 0 (start + 1) := by
      rw [List.map_append, h]
      simpa using hsnoc
    rw [show start + (ds.length + 1) = start + 1 + ds.length by omega]
    exact ih (m ++ [(start, d)]) (start + 1) hkeys

theorem addVectorsBody_inv (e : Engine) (c : String) (v : NDArray2) (ds : List String)
    (s : Option String) (h : EngineInv e) : EngineInv (addVectorsBody e c v ds s) := by
  intro c0 shards0 s0 st0 hc0 hs0
  unfold addVectorsBody at hc0
  simp only [setShard] at hc0
  rcases hcol : dget e.colls c with _ | shards
  all_goals rw [hcol] at hc0
  · by_cases hcc : c0 = c
    · subst hcc
      rw [dget_dset_self] at hc0
      injection hc0 with hsh
      subst hsh
      have hst : (lookupShard e c0 s).getD emptyShard = emptyShard := by
        simp [lookupShard, hcol]
      rw [hst] at hs0
      by_cases hss : s0 = normalizeShardId s
      · subst hss
        simp only [dget, if_pos, Option.some.injEq] at hs0
        rw [← hs0]
        simpa [emptyShard] using foldl_dset_keys ds [] 0 (by simp)
      · simp [dget, hss] at hs0
    · rw [dget_dset_ne _ _ _ _ hcc] at hc0
      exact h c0 shards0 s0 st0 hc0 hs0
  · by_cases hcc : c0 = c
    · subst hcc
      rw [dget_dset_self] at hc0
      injection hc0 with hsh
      subst hsh
      by_cases hss : s0 = normalizeShardId s
      · subst hss
        rw [dget_dset_self] at hs0
        injection hs0 with hst0
        subst hst0
        have hbase : ((lookupShard e c0 s).getD emptyShard).idMap.map Prod.fst
            = List.range' 0 ((lookupShard e c0 s).getD emptyShard).nextId := by
          rcases hsh : dget shards (normalizeShardId s) with _ | stx
          · simp [lookupShard, hcol, hsh, emptyShard]
          · simpa [lookupShard, hcol, hsh] using h c0 shards (normalizeShardId s) stx hcol hsh
        exact foldl_dset_keys ds _ _ hbase
      · rw [dget_dset_ne _ _ _ _ hss] at hs0
        exact h c0 shards s0 st0 hcol hs0
    · rw [dget_dset_ne _ _ _ _ hcc] at hc0
      exact h c0 shards0 s0 st0 hc0 hs0

theorem emptyEngine_inv (dim ram : Nat) : EngineInv (emptyEngine dim ram) := by
  intro c shards s st hc hs
  simp [emptyEngine, dget] at hc

theorem add_vectors_step_inv (e : Engine) (op : AddOp) (h : EngineInv e) :
    EngineInv (((add_vectors e op.collection_id op.vectors op.doc_ids
      op.shard_id).toOption).getD e) := by
  unfold add_vectors
  by_cases h1 : op.vectors.shape1 ≠ e.embedding_dim
  · simpa [h1, Except.toOption] using h
  · by_cases h2 : op.doc_ids.length ≠ op.vectors.rows.length
    · simpa [h1, h2, Except.toOption] using h
    · simpa [h1, h2, Except.toOption] using
        addVectorsBody_inv e op.collection_id op.vectors op.doc_ids op.shard_id h

theorem runOps_inv (dim ram : Nat) (ops : List AddOp) : EngineInv (runOps dim ram ops) := by
  unfold runOps
  have key : ∀ (l : List AddOp) (e : Engine), EngineInv e →
      EngineInv (l.foldl (fun e2 op =>
        ((add_vectors e2 op.collection_id op.vectors op.doc_ids
          op.shard_id).toOption).getD e2) e) := by
    intro l
    induction l with
    | nil => intro e he; simpa using he
    | cons op l ih =>
      intro e he
      exact ih _ (add_vectors_step_inv e op he)
  exact key ops _ (emptyEngine_inv dim ram)

/-- C6: in every engine reachable from an empty engine by add_vectors calls,
each shard's next_id equals the cardinality of its id-map (the map's keys are
pairwise distinct, so the list length is the cardinality); each successful
batch assigns internal ids [next_id, next_id + n) and advances next_id by n,
which is what preserves the invariant. -/
theorem nextId_eq_idMap_card (dim ram : Nat) (ops : List AddOp) (c s : String)
    (shards : Shards) (st : ShardState)
    (hc : dget (runOps dim ram ops).colls c = some shards)
    (hs : dget shards s = some st) :
    st.nextId = st.idMap.length ∧ (st.idMap.map Prod.fst).Nodup := by
  have hkeys := runOps_inv dim ram ops c shards s st hc hs
  constructor
  · have hlen := congrArg List.length hkeys
    simpa using hlen.symm
  · rw [hkeys]
    exact List.nodup_range' 0 st.nextId

/-- Witness for nextId_eq_idMap_card after one concrete two-vector batch. -/
theorem nextId_eq_idMap_card_witness :
    stW.nextId = stW.idMap.length ∧ (stW.idMap.map Prod.fst).Nodup :=
  nextId_eq_idMap_card 1 1 opsW "c" "default" [("default", stW)] stW
    (by decide) (by decide)

/-- C9: for every search with k > 0 on a nonempty shard, the result list has
at most min(k, current_count) entries, its scores are monotonically
non-increasing, and every returned score is 1 - the cosine distance of the
candidate it came from. -/
theorem search_len_sorted (e : Engine) (c : String) (q : Vec) (k : Int)
    (s : Option String) (st : ShardState) (hst : lookupShard e c s = some st)
    (hk : 0 < k) (hne : st.index ≠ []) :
    (searchE e c q k s).length ≤ min k.toNat st.index.length ∧
    List.Sorted scoreRel (searchE e c q k s) ∧
    ∀ p ∈ searchE e c q k s,
      ∃ ld ∈ knnQuery st.index q (min k.toNat st.index.length), p.2 = 1 - ld.2 := by
  have hk' : ¬ k ≤ 0 := by omega
  have hlen : ¬ st.index.length = 0 := by simpa [List.length_eq_zero] using hne
  by_cases hq : normSq q = 0
  · rw [searchE_nil_of_cases e c q k s (Or.inr (Or.inr (Or.inr hq)))]
    exact ⟨by simp, by simp, by simp⟩
  · rw [searchE_main_eq e c q k s st hst hk' hlen hq]
    refine ⟨?_, List.sorted_insertionSort scoreRel _, ?_⟩
    · have h1 := List.length_insertionSort scoreRel
        ((knnQuery st.index q (min k.toNat st.index.length)).filterMap
          (searchFilter st.idMap))
      have h2 := List.length_filterMap_le (searchFilter st.idMap)
        (knnQuery st.index q (min k.toNat st.index.length))
      have h3 : (knnQuery st.index q (min k.toNat st.index.length)).length
          ≤ min k.toNat st.index.length := by
        simp [knnQuery, List.length_take, List.length_insertionSort]
      omega
    · intro p hp
      have hp2 : p ∈ (knnQuery st.index q (min k.toNat st.index.length)).filterMap
          (searchFilter st.idMap) :=
        (List.perm_insertionSort scoreRel _).mem_iff.mp hp
      rcases List.mem_filterMap.mp hp2 with ⟨ld, hld, hf⟩
      exact ⟨ld, hld, (searchFilter_eq_some st.idMap ld p hf).2.2⟩

/-- Witness for search_len_sorted on a concrete two-vector shard. -/
theorem search_len_sorted_witness :
    (searchE engTwo "c1" [1] 5 none).length ≤ min (5 : Int).toNat stTwo.index.length ∧
    List.Sorted scoreRel (searchE engTwo "c1" [1] 5 none) :=
  ⟨(search_len_sorted engTwo "c1" [1] 5 none stTwo (by decide) (by decide) (by decide)).1,
   (search_len_sorted engTwo "c1" [1] 5 none stTwo (by decide) (by decide) (by decide)).2.1⟩

/-- C10: every search hit carries a nonempty doc id that the shard's id-map
maps some label to; candidates with unmapped labels or empty doc ids are
silently dropped, so a vector stored under doc_id "" is never returned, and a
nonempty shard searched with k = 1 can return fewer than min(k, current_count)
= 1 results. -/
theorem search_drops_unmapped_and_empty :
    (∀ e c q k s p, p ∈ searchE e c q k s →
      p.1 ≠ "" ∧ ∃ st l, lookupShard e c s = some st ∧ dget st.idMap l = some p.1) ∧
    (searchE engEmptyDoc "c" [1] 1 none = [] ∧
      (lookupShard engEmptyDoc "c" none).map (fun st => st.index.length) = some 1) := by
  constructor
  · intro e c q k s p hp
    rcases hls : lookupShard e c s with _ | st
    · rw [searchE_nil_of_cases e c q k s (Or.inl hls)] at hp
      cases hp
    · by_cases hk : k ≤ 0
      · rw [searchE_nil_of_cases e c q k s (Or.inr (Or.inl hk))] at hp
        cases hp
      · by_cases hlen : st.index.length = 0
        · rw [searchE_nil_of_cases e c q k s (Or.inr (Or.inr (Or.inl
            ⟨st, hls, List.length_eq_zero.mp hlen⟩)))] at hp
          cases hp
        · by_cases hq : normSq q = 0
          · rw [searchE_nil_of_cases e c q k s (Or.inr (Or.inr (Or.inr hq)))] at hp
            cases hp
          · rw [searchE_main_eq e c q k s st hls hk hlen hq] at hp
            have hp2 := (List.perm_insertionSort scoreRel _).mem_iff.mp hp
            rcases List.mem_filterMap.mp hp2 with ⟨ld, _, hf⟩
            have hext := searchFilter_eq_some st.idMap ld p hf
            exact ⟨hext.1, st, ld.1, rfl, hext.2.1⟩
  · exact ⟨by with_unfolding_all rfl, rfl⟩

/-- Witness for the universal part of search_drops_unmapped_and_empty at a
concrete hit. -/
theorem search_drops_unmapped_and_empty_witness :
    ("a" : String) ≠ "" ∧
    ∃ st l, lookupShard engTwo "c1" none = some st ∧ dget st.idMap l = some "a" := by
  have hval : searchE engTwo "c1" [1] 5 none = [("b", 2), ("a", 1)] := by
    with_unfolding_all rfl
  have hmem : (("a", 1) : String × ℚ) ∈ searchE engTwo "c1" [1] 5 none := by
    rw [hval]
    simp
  exact search_drops_unmapped_and_empty.1 engTwo "c1" [1] 5 none ("a", 1) hmem

/-! The PoRAM challenge computation (claim C3). -/

theorem sha256_length (msg : List Nat) : (sha256 msg).length = 32 := by
  simp [sha256, beBytes4]

theorem chunkPerSpec_ge32 (seed : List Nat) (off : Int) (size : Nat) (h : 32 ≤ size) :
    chunkPerSpec seed off size
      = sha256 (seed ++ beBytes8 off.toNat) ++ chunkPerSpec seed (off + 32) (size - 32) := by
  unfold chunkPerSpec
  have hnum : (size + 31) / 32 = ((size - 32) + 31) / 32 + 1 := by omega
  rw [hnum, List.range_succ_eq_map]
  simp only [List.map_cons, List.flatten_cons, List.map_map]
  have hzero : (off + 32 * ((0 : Nat) : Int)) = off := by norm_num
  rw [hzero]
  have hfun : (fun i : Nat => sha256 (seed ++ beBytes8 (off + 32 * (i : Int)).toNat)) ∘ Nat.succ
      = fun i : Nat => sha256 (seed ++ beBytes8 ((off + 32) + 32 * (i : Int)).toNat) := by
    funext i
    simp only [Function.comp]
    congr 2
    push_cast
    ring_nf
  rw [hfun, List.take_append_eq_append_take, sha256_length]
  congr 1
  exact List.take_of_length_le (by rw [sha256_length]; omega)

theorem chunkPerSpec_lt32 (seed : List Nat) (off : Int) (size : Nat) (h2 : size < 32) :
    chunkPerSpec seed off size = (sha256 (seed ++ beBytes8 off.toNat)).take size := by
  by_cases h1 : size = 0
  · subst h1
    simp [chunkPerSpec]
  · unfold chunkPerSpec
    have hnum : (size + 31) / 32 = 1 := by omega
    rw [hnum, show List.range 1 = [0] from rfl]
    simp

theorem buildChunkAux_eq_spec (seed : List Nat) :
    ∀ (fuel : Nat) (cur : Int) (r : Nat), r ≤ fuel → 0 ≤ cur →
      cur + (r : Int) ≤ 18446744073709551616 →
      buildChunkAux seed fuel cur r = Except.ok (chunkPerSpec seed cur r) := by
  intro fuel
  induction fuel with
  | zero =>
    intro cur r hr h0 h1
    have hz : r = 0 := by omega
    subst hz
    simp [buildChunkAux, chunkPerSpec]
  | succ fuel ih =>
    intro cur r hr h0 h1
    match r, hr, h1 with
    | 0, _, _ => simp [buildChunkAux, chunkPerSpec]
    | Nat.succ rr, hr, h1 =>
      have hb : toBytesBE8 cur = Except.ok (beBytes8 cur.toNat) := by
        unfold toBytesBE8
        rw [if_pos]
        refine ⟨h0, ?_⟩
        push_cast at h1
        omega
      unfold buildChunkAux
      rw [hb]
      show (if rr + 1 ≥ 32 then
          match buildChunkAux seed fuel (cur + 32) (rr + 1 - 32) with
          | Except.error e2 => Except.error e2
          | Except.ok rest => Except.ok (sha256 (seed ++ beBytes8 cur.toNat) ++ rest)
        else Except.ok ((sha256 (seed ++ beBytes8 cur.toNat)).take (rr + 1)))
        = Except.ok (chunkPerSpec seed cur (rr + 1))
      by_cases h32 : rr + 1 ≥ 32
      · have hih := ih (cur + 32) (rr + 1 - 32) (by omega) (by omega)
          (by push_cast at h1 ⊢; omega)
        rw [if_pos h32, hih, chunkPerSpec_ge32 seed cur (rr + 1) h32]
      · rw [if_neg h32, chunkPerSpec_lt32 seed cur (rr + 1) (by omega)]

theorem mapM_buildChunk (seed : List Nat) (cs : Int) (hcs : 0 ≤ cs) :
    ∀ offsets : List Int, (∀ o ∈ offsets, 0 ≤ o ∧ o + cs ≤ 18446744073709551616) →
      (offsets.mapM (fun offset =>
          match buildChunk seed offset cs with
          | Except.error e2 => Except.error e2
          | Except.ok bs => Except.ok (String.mk (b64EncodeBytes bs)))
        : Except Unit (List String))
      = Except.ok (offsets.map
          (fun o => String.mk (b64EncodeBytes (chunkPerSpec seed o cs.toNat)))) := by
  intro offsets
  induction offsets with
  | nil => intro _; rfl
  | cons o os ih =>
    intro h
    rw [List.mapM_cons]
    have hbc : buildChunk seed o cs = Except.ok (chunkPerSpec seed o cs.toNat) := by
      unfold buildChunk
      apply buildChunkAux_eq_spec seed cs.toNat o cs.toNat le_rfl (h o (by simp)).1
      rw [Int.toNat_of_nonneg hcs]
      exact (h o (by simp)).2
    rw [hbc, ih (fun o2 ho2 => h o2 (by simp [ho2]))]
    rfl

/-- C3 (amended): for a challenge_request with well-formed hex epoch_seed,
nonnegative chunk_size, and every offset o satisfying 0 ≤ o and
o + chunk_size ≤ 2^64 (so that int.to_bytes(8) can encode every offset the
loop touches), the returned chunks are, in input offset order, exactly the
base64 encodings of the byte strings of length chunk_size built by
concatenating successive SHA-256 digests of epoch_seed ++
big_endian_uint64(current_offset) with the offset advancing by 32 per digest;
consequently two invocations agreeing on epoch_seed, offsets and chunk_size
produce byte-identical chunks. Outside that offset range int.to_bytes raises
and the handler answers with an empty chunks list (see the counterexample). -/
theorem handleChallenge_chunks (m : ChallengeRequestIn) (seed : List Nat)
    (hseed : hexDecode m.epoch_seed = some seed) (hcs : 0 ≤ m.chunk_size)
    (hoff : ∀ o ∈ m.offsets, 0 ≤ o ∧ o + m.chunk_size ≤ 18446744073709551616) :
    (handleChallenge m).chunks = m.offsets.map
      (fun o => String.mk (b64EncodeBytes (chunkPerSpec seed o m.chunk_size.toNat))) ∧
    ∀ m' : ChallengeRequestIn, m'.epoch_seed = m.epoch_seed → m'.offsets = m.offsets →
      m'.chunk_size = m.chunk_size →
      (handleChallenge m').chunks = (handleChallenge m).chunks := by
  have hatt : challengeAttempt m = Except.ok (m.offsets.map
      (fun o => String.mk (b64EncodeBytes (chunkPerSpec seed o m.chunk_size.toNat)))) := by
    unfold challengeAttempt
    rw [hseed]
    exact mapM_buildChunk seed m.chunk_size hcs m.offsets hoff
  constructor
  · unfold handleChallenge
    rw [hatt]
  · intro m' h1 h2 h3
    have hatt' : challengeAttempt m' = challengeAttempt m := by
      unfold challengeAttempt
      rw [h1, h2, h3]
    unfold handleChallenge
    rw [hatt', hatt]

/-- Witness for handleChallenge_chunks at the scenario-5 style challenge with
a one-byte zero seed, offset 0 and chunk_size 32. -/
theorem handleChallenge_chunks_witness :
    (handleChallenge chalW).chunks = chalW.offsets.map
      (fun o => String.mk (b64EncodeBytes (chunkPerSpec [0] o chalW.chunk_size.toNat))) :=
  (handleChallenge_chunks chalW [0] rfl (by decide) (by decide)).1

/-- C3 counterexample: the hex seed is well formed, yet with the single offset
2^64 the handler returns no chunks at all (int.to_bytes(8) raises and the
handler catches it), so no chunk is the digest concatenation the claim
describes for that offset. -/
theorem handleChallenge_overflow_empty :
    hexDecode chalBad.epoch_seed = some [0] ∧
    (handleChallenge chalBad).chunks = [] ∧ chalBad.offsets.length = 1 :=
  ⟨rfl, rfl, rfl⟩

/-! Base64 and the vector codec (claim C5). -/

theorem b64Char_ne_pad (n : Nat) : b64Char n ≠ '=' := by
  unfold b64Char
  rcases hg : b64Alphabet[n]? with _ | c
  · rw [List.getD_eq_getElem?_getD, hg]
    decide
  · rw [List.getD_eq_getElem?_getD, hg]
    have hc : c ∈ b64Alphabet := List.getElem?_mem hg
    intro he
    rw [Option.getD_some] at he
    subst he
    revert hc
    decide

theorem b64Val_b64Char : ∀ n : Nat, n < 64 → b64Val (b64Char n) = n := by decide

/-- Helper: decoding one unpadded base64 quartet. -/
theorem b64DecodeChars_full (c1 c2 c3 c4 : Char) (tl : List Char) (h3 : c3 ≠ '=')
    (h4 : c4 ≠ '=') :
    b64DecodeChars (c1 :: c2 :: c3 :: c4 :: tl)
      = (b64Val c1 * 262144 + b64Val c2 * 4096 + b64Val c3 * 64 + b64Val c4) / 65536
        :: (b64Val c1 * 262144 + b64Val c2 * 4096 + b64Val c3 * 64 + b64Val c4) / 256 % 256
        :: (b64Val c1 * 262144 + b64Val c2 * 4096 + b64Val c3 * 64 + b64Val c4) % 256
        :: b64DecodeChars tl := by
  show (if c3 = '=' then [(b64Val c1 * 262144 + b64Val c2 * 4096) / 65536]
      else if c4 = '=' then
        [(b64Val c1 * 262144 + b64Val c2 * 4096 + b64Val c3 * 64) / 65536,
         (b64Val c1 * 262144 + b64Val c2 * 4096 + b64Val c3 * 64) / 256 % 256]
      else
        (b64Val c1 * 262144 + b64Val c2 * 4096 + b64Val c3 * 64 + b64Val c4) / 65536
          :: (b64Val c1 * 262144 + b64Val c2 * 4096 + b64Val c3 * 64 + b64Val c4) / 256 % 256
          :: (b64Val c1 * 262144 + b64Val c2 * 4096 + b64Val c3 * 64 + b64Val c4) % 256
          :: b64DecodeChars tl)
    = (b64Val c1 * 262144 + b64Val c2 * 4096 + b64Val c3 * 64 + b64Val c4) / 65536
        :: (b64Val c1 * 262144 + b64Val c2 * 4096 + b64Val c3 * 64 + b64Val c4) / 256 % 256
        :: (b64Val c1 * 262144 + b64Val c2 * 4096 + b64Val c3 * 64 + b64Val c4) % 256
        :: b64DecodeChars tl
  rw [if_neg h3, if_neg h4]

theorem b64_roundtrip : ∀ bs : List Nat, (∀ b ∈ bs, b < 256) →
    b64DecodeChars (b64EncodeBytes bs) = bs
  | [] => fun _ => rfl
  | [a] => fun h => by
    have ha : a < 256 := h a (by simp)
    show b64DecodeChars [b64Char (a * 65536 / 262144), b64Char (a * 65536 / 4096 % 64),
      '=', '='] = [a]
    unfold b64DecodeChars
    rw [if_pos rfl]
    rw [b64Val_b64Char _ (by omega), b64Val_b64Char _ (by omega)]
    simp only [List.cons.injEq, and_true]
    omega
  | [a, b] => fun h => by
    have ha : a < 256 := h a (by simp)
    have hb : b < 256 := h b (by simp)
    show b64DecodeChars [b64Char ((a * 65536 + b * 256) / 262144),
      b64Char ((a * 65536 + b * 256) / 4096 % 64),
      b64Char ((a * 65536 + b * 256) / 64 % 64), '='] = [a, b]
    unfold b64DecodeChars
    rw [if_neg (b64Char_ne_pad _), if_pos rfl]
    rw [b64Val_b64Char _ (by omega), b64Val_b64Char _ (by omega), b64Val_b64Char _ (by omega)]
    simp only [List.cons.injEq, and_true]
    omega
  | a :: b :: c :: rest => fun h => by
    have ha : a < 256 := h a (by simp)
    have hb : b < 256 := h b (by simp)
    have hc : c < 256 := h c (by simp)
    have ih := b64_roundtrip rest (fun x hx => h x (by simp [hx]))
    show b64DecodeChars (b64Char ((a * 65536 + b * 256 + c) / 262144)
        :: b64Char ((a * 65536 + b * 256 + c) / 4096 % 64)
        :: b64Char ((a * 65536 + b * 256 + c) / 64 % 64)
        :: b64Char ((a * 65536 + b * 256 + c) % 64) :: b64EncodeBytes rest)
      = a :: b :: c :: rest
    rw [b64DecodeChars_full _ _ _ _ _ (b64Char_ne_pad _) (b64Char_ne_pad _)]
    rw [b64Val_b64Char _ (by omega), b64Val_b64Char _ (by omega),
      b64Val_b64Char _ (by omega), b64Val_b64Char _ (by omega), ih]
    simp only [List.cons.injEq, and_true]
    refine ⟨by omega, by omega, by omega⟩

theorem leBytes4_lt (ws : List Nat) : ∀ b ∈ ws.flatMap leBytes4, b < 256 := by
  intro b hb
  rcases List.mem_flatMap.mp hb with ⟨w, _, hbw⟩
  simp only [leBytes4, List.mem_cons, List.not_mem_nil, or_false] at hbw
  rcases hbw with h | h | h | h <;> omega

theorem length_flatMap_leBytes4 : ∀ ws : List Nat, (ws.flatMap leBytes4).length = 4 * ws.length
  | [] => rfl
  | w :: ws => by
    rw [List.flatMap_cons, List.length_append, length_flatMap_leBytes4 ws]
    simp [leBytes4]
    omega

theorem bytesToWordsLE_roundtrip : ∀ ws : List Nat, (∀ w ∈ ws, w < 4294967296) →
    bytesToWordsLE (ws.flatMap leBytes4) = ws
  | [] => fun _ => rfl
  | w :: ws => fun h => by
    have hw : w < 4294967296 := h w (by simp)
    have ih := bytesToWordsLE_roundtrip ws (fun x hx => h x (by simp [hx]))
    show bytesToWordsLE (w % 256 :: w / 256 % 256 :: w / 65536 % 256 :: w / 16777216 % 256
      :: ws.flatMap leBytes4) = w :: ws
    unfold bytesToWordsLE
    rw [ih]
    simp only [List.cons.injEq, and_true]
    omega

theorem buildRows_flatten {α : Type} : ∀ (rows : List (List α)) (d : Nat),
    (∀ r ∈ rows, r.length = d) → buildRows rows.length d rows.flatten = rows
  | [], _ => fun _ => rfl
  | r :: rows, d => fun h => by
    have hr : r.length = d := h r (by simp)
    have ih := buildRows_flatten rows d (fun x hx => h x (by simp [hx]))
    show buildRows (rows.length + 1) d (r ++ rows.flatten) = r :: rows
    unfold buildRows
    rw [List.take_left' hr, List.drop_left' hr, ih]

theorem flatten_length_uniform {α : Type} : ∀ (rows : List (List α)) (d : Nat),
    (∀ r ∈ rows, r.length = d) → rows.flatten.length = rows.length * d
  | [], _ => fun _ => by simp
  | r :: rows, d => fun h => by
    rw [List.flatten_cons, List.length_append, h r (by simp),
      flatten_length_uniform rows d (fun x hx => h x (by simp [hx]))]
    simp only [List.length_cons]
    ring

theorem reshape2_flatten {α : Type} (rows : List (List α)) (d : Nat)
    (h : ∀ r ∈ rows, r.length = d) :
    reshape2 rows.length d rows.flatten = some rows := by
  unfold reshape2
  rw [if_pos (flatten_length_uniform rows d h), buildRows_flatten rows d h]

/-- C5: decode_vectors applied to the output of encode_vectors (text and
shape) returns exactly the input float32 array, bit-identically. The
compressor is modelled per the spec as an agreeing encoder/decoder pair; the
base64 layer and the float32 byte layout are the real ones. -/
theorem decode_encode_roundtrip (V : Float32Matrix) (h : wfFloat32 V) :
    decode_vectors (encode_vectors V).1 (encode_vectors V).2 = some V := by
  obtain ⟨hrect, hbound⟩ := h
  unfold encode_vectors decode_vectors
  simp only [zstdCompress, zstdDecompress]
  rw [b64_roundtrip (matBytes V) (leBytes4_lt V.rows.flatten)]
  unfold matBytes
  rw [if_pos (by rw [length_flatMap_leBytes4]; omega)]
  rw [bytesToWordsLE_roundtrip V.rows.flatten
    (fun x hx => by
      rcases List.mem_flatten.mp hx with ⟨r, hr, hxr⟩
      exact hbound r hr x hxr)]
  rw [reshape2_flatten V.rows V.dim hrect]
  rfl

/-- Witness for decode_encode_roundtrip at a concrete 2x2 bit-pattern array. -/
theorem decode_encode_roundtrip_witness :
    decode_vectors (encode_vectors ⟨2, [[1, 4294967295], [77, 3212836864]]⟩).1
        (encode_vectors ⟨2, [[1, 4294967295], [77, 3212836864]]⟩).2
      = some ⟨2, [[1, 4294967295], [77, 3212836864]]⟩ :=
  decode_encode_roundtrip ⟨2, [[1, 4294967295], [77, 3212836864]]⟩
    (by constructor <;> decide)

/-! Persistence (claim C2): further dict lemmas. -/

theorem dset_dset {α β : Type} [DecidableEq α] (m : List (α × β)) (k : α) (v w : β) :
    dset (dset m k v) k w = dset m k w := by
  induction m with
  | nil => simp [dset]
  | cons p rest ih =>
    obtain ⟨k', v'⟩ := p
    by_cases h : k = k'
    · simp [dset, h]
    · simp [dset, h, ih]

theorem dset_eq_self_of_dget {α β : Type} [DecidableEq α] (m : List (α × β)) (k : α) (v : β)
    (h : dget m k = some v) : dset m k v = m := by
  induction m with
  | nil => simp [dget] at h
  | cons p rest ih =>
    obtain ⟨k', v'⟩ := p
    by_cases hk : k = k'
    · simp only [dget, if_pos hk, Option.some.injEq] at h
      simp [dset, hk, h]
    · simp only [dget, if_neg hk] at h
      simp [dset, hk, ih h]

theorem dget_append_single {α β : Type} [DecidableEq α] (m : List (α × β)) (k : α) (v : β)
    (h : dget m k = none) : dget (m ++ [(k, v)]) k = some v := by
  induction m with
  | nil => simp [dget]
  | cons p rest ih =>
    obtain ⟨k', v'⟩ := p
    by_cases hk : k = k'
    · simp [dget, hk] at h
    · simp only [dget, if_neg hk] at h
      simp only [List.cons_append, dget, if_neg hk]
      exact ih h

theorem dset_append_single {α β : Type} [DecidableEq α] (m : List (α × β)) (k : α) (v w : β)
    (h : dget m k = none) : dset (m ++ [(k, v)]) k w = m ++ [(k, w)] := by
  induction m with
  | nil => simp [dset]
  | cons p rest ih =>
    obtain ⟨k', v'⟩ := p
    by_cases hk : k = k'
    · simp [dget, hk] at h
    · simp only [dget, if_neg hk] at h
      simp only [List.cons_append, dset, if_neg hk]
      exact congrArg (fun t => (k', v') :: t) (ih h)

theorem dget_append_none {α β : Type} [DecidableEq α] (m m2 : List (α × β)) (k : α)
    (h1 : dget m k = none) (h2 : dget m2 k = none) : dget (m ++ m2) k = none := by
  induction m with
  | nil => simpa using h2
  | cons p rest ih =>
    obtain ⟨k', v'⟩ := p
    by_cases hk : k = k'
    · simp [dget, hk] at h1
    · simp only [dget, if_neg hk] at h1
      simp only [List.cons_append, dget, if_neg hk]
      exact ih h1

theorem mem_of_dget {α β : Type} [DecidableEq α] (m : List (α × β)) (k : α) (v : β)
    (h : dget m k = some v) : (k, v) ∈ m := by
  induction m with
  | nil => simp [dget] at h
  | cons p rest ih =>
    obtain ⟨k', v'⟩ := p
    by_cases hk : k = k'
    · simp only [dget, if_pos hk, Option.some.injEq] at h
      subst hk
      subst h
      simp
    · simp only [dget, if_neg hk] at h
      exact List.mem_cons_of_mem _ (ih h)

/-! Persistence (claim C2): file-name lemmas. -/

theorem startsWithL_self_append : ∀ (p l : List Char), startsWithL p (p ++ l) = true := by
  intro p
  induction p with
  | nil => intro l; rfl
  | cons c cs ih => intro l; simp [startsWithL, ih]

theorem removeAllAux_no_substr (pat : List Char) : ∀ (fuel : Nat) (l : List Char),
    l.length ≤ fuel → hasSubstr pat l = false → removeAllAux pat fuel l = l := by
  intro fuel
  induction fuel with
  | zero => intro l h1 h2; rfl
  | succ fuel ih =>
    intro l h1 h2
    cases l with
    | nil => rfl
    | cons c rest =>
      simp only [hasSubstr, Bool.or_eq_false_iff] at h2
      show (if pat ≠ [] ∧ startsWithL pat (c :: rest) = true then
          removeAllAux pat fuel ((c :: rest).drop pat.length)
        else c :: removeAllAux pat fuel rest) = c :: rest
      rw [if_neg]
      · rw [ih rest (by simp at h1; omega) h2.2]
      · rintro ⟨_, hsw⟩
        rw [h2.1] at hsw
        cases hsw

theorem removeAllAux_head_match (p : Char) (ps l : List Char) (fuel : Nat)
    (hf : l.length ≤ fuel) (hsub : hasSubstr (p :: ps) l = false) :
    removeAllAux (p :: ps) (fuel + 1) ((p :: ps) ++ l) = l := by
  show (if (p :: ps) ≠ [] ∧ startsWithL (p :: ps) (p :: (ps ++ l)) = true then
      removeAllAux (p :: ps) fuel ((p :: (ps ++ l)).drop (p :: ps).length)
    else p :: removeAllAux (p :: ps) fuel (ps ++ l)) = l
  rw [if_pos ⟨by simp, by
    rw [show p :: (ps ++ l) = (p :: ps) ++ l from rfl]
    exact startsWithL_self_append _ _⟩]
  rw [show (p :: (ps ++ l)).drop (p :: ps).length = l from by
    rw [show p :: (ps ++ l) = (p :: ps) ++ l from rfl]
    exact List.drop_left _ _]
  exact removeAllAux_no_substr _ fuel l hf hsub

theorem mangleShard_binName (s : String)
    (h1 : hasSubstr "shard_".data s.data = false)
    (h2 : hasSubstr ".bin".data s.data = false) :
    mangleShard (shardBinName s) = s.data := by
  unfold mangleShard shardBinName stemBin
  have hstem : ("shard_".data ++ s.data ++ ".bin".data).take
      (("shard_".data ++ s.data ++ ".bin".data).length - 4)
      = "shard_".data ++ s.data := by
    rw [show ("shard_".data ++ s.data ++ ".bin".data).length - 4
      = ("shard_".data ++ s.data).length from by
        simp only [List.length_append]
        rw [show ".bin".data.length = 4 from rfl]
        omega]
    exact List.take_left _ _
  rw [hstem]
  have hshard : removeAll "shard_".data ("shard_".data ++ s.data) = s.data := by
    unfold removeAll
    rw [show ("shard_".data ++ s.data).length = s.data.length + 5 + 1 from by
      simp only [List.length_append]
      rw [show "shard_".data.length = 6 from rfl]
      omega]
    exact removeAllAux_head_match 's' "hard_".data s.data (s.data.length + 5) (by omega) h1
  rw [hshard]
  unfold removeAll
  exact removeAllAux_no_substr ".bin".data s.data.length s.data le_rfl h2

theorem endsWithL_shardBinName (s : String) : endsWithL ".bin".data (shardBinName s) = true := by
  unfold endsWithL shardBinName
  rw [List.reverse_append]
  exact startsWithL_self_append _ _

theorem startsWithL_shardBinName (s : String) :
    startsWithL "shard_".data (shardBinName s) = true := by
  unfold shardBinName
  rw [List.append_assoc]
  exact startsWithL_self_append _ _

theorem endsWithL_shardMapName (s : String) :
    endsWithL ".bin".data (shardMapName s) = false := by
  unfold endsWithL shardMapName
  rw [List.reverse_append]
  rw [show "_map.json".data.reverse = ['n', 'o', 's', 'j', '.', 'p', 'a', 'm', '_'] from rfl]
  simp [startsWithL]

theorem shardMapName_ne_shardBinName (s s2 : String) : shardMapName s ≠ shardBinName s2 := by
  intro he
  have hx := endsWithL_shardMapName s
  rw [he, endsWithL_shardBinName] at hx
  cases hx

theorem shardMapName_inj (s s2 : String) (h : shardMapName s = shardMapName s2) : s = s2 := by
  unfold shardMapName at h
  rw [List.append_assoc, List.append_assoc] at h
  have h2 := List.append_cancel_left h
  have h3 := List.append_cancel_right h2
  cases s
  cases s2
  exact congrArg String.mk h3

/-! Persistence (claim C2): the load of a saved collection directory. -/

theorem dget_saveFiles_map (shards : Shards) (s : String) (st : ShardState)
    (hnd : (shards.map Prod.fst).Nodup) (hmem : (s, st) ∈ shards) :
    dget (saveCollectionFiles shards) (shardMapName s)
      = some (DiskFile.mapf ⟨st.idMap, st.nextId⟩) := by
  induction shards with
  | nil => cases hmem
  | cons p rest ih =>
    obtain ⟨s0, st0⟩ := p
    simp only [List.map_cons, List.nodup_cons] at hnd
    rw [show saveCollectionFiles ((s0, st0) :: rest)
      = (shardBinName s0, DiskFile.bin st0.index)
        :: (shardMapName s0, DiskFile.mapf ⟨st0.idMap, st0.nextId⟩)
        :: saveCollectionFiles rest from rfl]
    rw [show dget ((shardBinName s0, DiskFile.bin st0.index)
        :: (shardMapName s0, DiskFile.mapf ⟨st0.idMap, st0.nextId⟩)
        :: saveCollectionFiles rest) (shardMapName s)
      = dget ((shardMapName s0, DiskFile.mapf ⟨st0.idMap, st0.nextId⟩)
        :: saveCollectionFiles rest) (shardMapName s) from by
      simp [dget, shardMapName_ne_shardBinName s s0]]
    by_cases hss : s = s0
    · subst hss
      have hst : st = st0 := by
        rcases List.mem_cons.mp hmem with h | h
        · exact (Prod.mk.injEq _ _ _ _        |>.mp h.symm).2.symm
        · exact absurd (List.mem_map.mpr ⟨(s, st), h, rfl⟩) hnd.1
      subst hst
      simp [dget]
    · have hne : shardMapName s ≠ shardMapName s0 := fun hcontra => hss (shardMapName_inj _ _ hcontra)
      rw [show dget ((shardMapName s0, DiskFile.mapf ⟨st0.idMap, st0.nextId⟩)
          :: saveCollectionFiles rest) (shardMapName s)
        = dget (saveCollectionFiles rest) (shardMapName s) from by simp [dget, hne]]
      refine ih hnd.2 ?_
      rcases List.mem_cons.mp hmem with h | h
      · exact absurd (congrArg Prod.fst h) hss
      · exact h

theorem dirFileStep_bin_eq (c : String) (files : List (List Char × DiskFile)) (acc : Colls)
    (s0 : String) (idx : IndexItems) (md : MapFile)
    (hc1 : hasSubstr "shard_".data s0.data = false)
    (hc2 : hasSubstr ".bin".data s0.data = false)
    (hmap : dget files (shardMapName s0) = some (DiskFile.mapf md)) :
    dirFileStep c files acc (shardBinName s0, DiskFile.bin idx)
      = setShard acc c s0 ⟨idx, md.id_map, md.next_id⟩ := by
  unfold dirFileStep
  rw [if_pos (by rw [startsWithL_shardBinName, endsWithL_shardBinName]; rfl)]
  rw [show String.mk (mangleShard (shardBinName s0)) = s0 from by
    rw [mangleShard_binName s0 hc1 hc2]]
  simp only [hmap]

theorem dirFileStep_skip_map (c : String) (files : List (List Char × DiskFile)) (acc : Colls)
    (s0 : String) (f : DiskFile) :
    dirFileStep c files acc (shardMapName s0, f) = acc := by
  unfold dirFileStep
  rw [if_neg]
  rw [endsWithL_shardMapName]
  simp

theorem foldl_setShard_present (c : String) : ∀ (rest : Shards) (acc : Colls) (cur : Shards),
    dget acc c = some cur → (∀ p ∈ rest, p.1 ∉ cur.map Prod.fst) →
    (rest.map Prod.fst).Nodup →
    rest.foldl (fun a p => setShard a c p.1 p.2) acc = dset acc c (cur ++ rest) := by
  intro rest
  induction rest with
  | nil =>
    intro acc cur hacc _ _
    simp only [List.foldl_nil, List.append_nil]
    exact (dset_eq_self_of_dget acc c cur hacc).symm
  | cons p rest ih =>
    obtain ⟨s1, st1⟩ := p
    intro acc cur hacc hfresh hnd
    simp only [List.map_cons, List.nodup_cons] at hnd
    rw [List.foldl_cons]
    have hstep : setShard acc c s1 st1 = dset acc c (cur ++ [(s1, st1)]) := by
      unfold setShard
      rw [hacc]
      show dset acc c (dset cur s1 st1) = dset acc c (cur ++ [(s1, st1)])
      rw [dset_append_of_dget_none cur s1 st1
        ((dget_none_iff_keys cur s1).mpr (hfresh (s1, st1) (by simp)))]
    rw [hstep]
    rw [ih (dset acc c (cur ++ [(s1, st1)])) (cur ++ [(s1, st1)]) (dget_dset_self _ _ _)
      ?hfr hnd.2]
    case hfr =>
      intro p hp
      simp only [List.map_append, List.mem_append]
      rintro (hin | hin)
      · exact hfresh p (by simp [hp]) hin
      · simp only [List.map_cons, List.map_nil, List.mem_cons, List.not_mem_nil,
          or_false] at hin
        exact hnd.1 (hin ▸ List.mem_map.mpr ⟨p, hp, rfl⟩)
    rw [dset_dset]
    congr 1
    simp

theorem foldl_setShard_new (c : String) (shards : Shards) (acc : Colls)
    (hacc : dget acc c = none) (hne : shards ≠ []) (hnd : (shards.map Prod.fst).Nodup) :
    shards.foldl (fun a p => setShard a c p.1 p.2) acc = acc ++ [(c, shards)] := by
  match shards, hne with
  | (s0, st0) :: rest, _ =>
    simp only [List.map_cons, List.nodup_cons] at hnd
    rw [List.foldl_cons]
    have h1 : setShard acc c s0 st0 = acc ++ [(c, [(s0, st0)])] := by
      unfold setShard
      rw [hacc, dset_append_of_dget_none _ _ _ hacc]
    rw [h1]
    rw [foldl_setShard_present c rest (acc ++ [(c, [(s0, st0)])]) [(s0, st0)]
      (dget_append_single acc c _ hacc) ?hfr hnd.2]
    case hfr =>
      intro p hp
      simp only [List.map_cons, List.map_nil, List.mem_cons, List.not_mem_nil, or_false]
      intro hps
      exact hnd.1 (hps ▸ List.mem_map.mpr ⟨p, hp, rfl⟩)
    rw [dset_append_single acc c _ _ hacc]
    simp

theorem fold_dirFileStep (c : String) (shardsAll : Shards)
    (hnd : (shardsAll.map Prod.fst).Nodup)
    (hclean : ∀ p ∈ shardsAll, hasSubstr "shard_".data p.1.data = false ∧
      hasSubstr ".bin".data p.1.data = false) :
    ∀ (pending : Shards) (acc : Colls), (∀ p ∈ pending, p ∈ shardsAll) →
      (saveCollectionFiles pending).foldl
        (dirFileStep c (saveCollectionFiles shardsAll)) acc
      = pending.foldl (fun a p => setShard a c p.1 p.2) acc := by
  intro pending
  induction pending with
  | nil => intro acc _; rfl
  | cons p rest ih =>
    obtain ⟨s0, st0⟩ := p
    intro acc hsub
    rw [show saveCollectionFiles ((s0, st0) :: rest)
      = (shardBinName s0, DiskFile.bin st0.index)
        :: (shardMapName s0, DiskFile.mapf ⟨st0.idMap, st0.nextId⟩)
        :: saveCollectionFiles rest from rfl]
    rw [List.foldl_cons, List.foldl_cons]
    rw [dirFileStep_bin_eq c _ acc s0 st0.index ⟨st0.idMap, st0.nextId⟩
      (hclean (s0, st0) (hsub _ (by simp))).1 (hclean (s0, st0) (hsub _ (by simp))).2
      (dget_saveFiles_map shardsAll s0 st0 hnd (hsub _ (by simp)))]
    rw [dirFileStep_skip_map]
    rw [show (⟨st0.index, st0.idMap, st0.nextId⟩ : ShardState) = st0 from rfl]
    rw [ih _ (fun q hq => hsub q (by simp [hq]))]
    rfl

/-! Persistence (claim C2): load_all over a save_all directory. -/

theorem legacyStep_dir (root : Disk) (colls : Colls) (name : List Char)
    (files : List (List Char × DiskFile)) :
    legacyStep root colls (name, RootEntry.dir files) = colls := by
  unfold legacyStep
  split <;> rfl

theorem legacyFold_all_dirs (root : Disk) : ∀ (l : Disk) (colls : Colls),
    (∀ p ∈ l, ∃ files, p.2 = RootEntry.dir files) →
    l.foldl (legacyStep root) colls = colls := by
  intro l
  induction l with
  | nil => intro colls _; rfl
  | cons p rest ih =>
    intro colls h
    obtain ⟨files, hf⟩ := h p (by simp)
    rw [List.foldl_cons]
    rw [show p = (p.1, RootEntry.dir files) from by rw [← hf]]
    rw [legacyStep_dir]
    exact ih colls (fun q hq => h q (by simp [hq]))

theorem legacyPass_saveAll (e : Engine) : legacyPass (saveAll e) [] = [] := by
  unfold legacyPass
  apply legacyFold_all_dirs
  intro p hp
  rcases List.mem_map.mp hp with ⟨q, _, rfl⟩
  exact ⟨_, rfl⟩

theorem dirPass_saveAll (e : Engine) (hrep : RepOk e) (hclean : CleanShardIds e) :
    dirPass (saveAll e) [] = e.colls := by
  unfold dirPass saveAll
  rw [List.foldl_map]
  have key : ∀ (cs : List (String × Shards)) (acc : Colls),
      (∀ p ∈ cs, dget acc p.1 = none) → (cs.map Prod.fst).Nodup →
      (∀ p ∈ cs, p.2 ≠ [] ∧ (p.2.map Prod.fst).Nodup) →
      (∀ p ∈ cs, ∀ q ∈ p.2, hasSubstr "shard_".data q.1.data = false ∧
        hasSubstr ".bin".data q.1.data = false) →
      cs.foldl (fun acc2 p => (saveCollectionFiles p.2).foldl
        (dirFileStep (String.mk p.1.data) (saveCollectionFiles p.2)) acc2) acc
      = acc ++ cs := by
    intro cs
    induction cs with
    | nil =>
      intro acc _ _ _ _
      simp
    | cons p rest ih =>
      obtain ⟨c, shards⟩ := p
      intro acc hfresh hnd hsh hcl
      simp only [List.map_cons, List.nodup_cons] at hnd
      rw [List.foldl_cons]
      rw [show String.mk (c : String).data = c from rfl]
      rw [fold_dirFileStep c shards (hsh (c, shards) (by simp)).2
        (hcl (c, shards) (by simp)) shards acc (fun q hq => hq)]
      rw [foldl_setShard_new c shards acc (hfresh (c, shards) (by simp))
        (hsh (c, shards) (by simp)).1 (hsh (c, shards) (by simp)).2]
      rw [ih (acc ++ [(c, shards)]) ?hfr hnd.2 (fun q hq => hsh q (by simp [hq]))
        (fun q hq => hcl q (by simp [hq]))]
      case hfr =>
        intro q hq
        refine dget_append_none acc [(c, shards)] q.1 (hfresh q (by simp [hq])) ?_
        have hqc : q.1 ≠ c := by
          intro hcontra
          exact hnd.1 (hcontra ▸ List.mem_map.mpr ⟨q, hq, rfl⟩)
        simp [dget, hqc]
      simp
  exact key e.colls [] (fun _ _ => rfl) hrep.1
    (fun p hp => ⟨(hrep.2 p hp).1, (hrep.2 p hp).2.1⟩)
    (fun p hp q hq => hclean p hp q hq)

/-- Helper: a save_all then fresh load_all reproduces the engine exactly, for
engines satisfying the dict representation invariant whose shard ids survive
the file-name mangling. -/
theorem loadAll_saveAll (e : Engine) (hrep : RepOk e) (hclean : CleanShardIds e) :
    loadAll e.embedding_dim e.max_ram_gb (saveAll e) = e := by
  unfold loadAll
  rw [legacyPass_saveAll, dirPass_saveAll e hrep hclean]

/-- Helper: a nonempty doc id mapped by a live label is returned by a search
addressed to its collection and shard with k = current_count and query [1]. -/
theorem searchE_mem_of_idMap (e : Engine) (c s : String) (shards : Shards)
    (st : ShardState) (l : Nat) (d : String)
    (hc : dget e.colls c = some shards) (hs : dget shards s = some st) (hsne : s ≠ "")
    (hnd : (st.idMap.map Prod.fst).Nodup)
    (hlab : ∀ lv ∈ st.idMap, lv.1 ∈ st.index.map Prod.fst)
    (hmem : (l, d) ∈ st.idMap) (hd : d ≠ "") :
    d ∈ (searchE e c [1] (st.index.length : Int) (some s)).map Prod.fst := by
  have hlk : lookupShard e c (some s) = some st := by
    simp [lookupShard, hc, normalizeShardId, hsne, hs]
  have hlab' : l ∈ st.index.map Prod.fst := hlab (l, d) hmem
  have hlen : 0 < st.index.length := by
    rcases List.mem_map.mp hlab' with ⟨q, hq, _⟩
    exact List.length_pos.mpr (List.ne_nil_of_mem hq)
  have hk : ¬ ((st.index.length : Int) ≤ 0) := by
    omega
  have hq0 : ¬ (normSq [1] = 0) := by norm_num [normSq]
  rw [searchE_main_eq e c [1] _ (some s) st hlk hk (by omega) hq0]
  have hkt : ((st.index.length : Int)).toNat = st.index.length := Int.toNat_natCast _
  have hcands : knnQuery st.index [1] (min ((st.index.length : Int)).toNat st.index.length)
      = List.insertionSort distRel
          (st.index.map (fun p => (p.1, cosineDistance [1] p.2))) := by
    unfold knnQuery
    rw [hkt, min_self]
    apply List.take_of_length_le
    rw [List.length_insertionSort, List.length_map]
  obtain ⟨v, hv⟩ : ∃ v, (l, v) ∈ st.index := by
    rcases List.mem_map.mp hlab' with ⟨q, hq, hql⟩
    exact ⟨q.2, by rw [show (l, q.2) = q from Prod.ext hql.symm rfl]; exact hq⟩
  have hcand : (l, cosineDistance [1] v)
      ∈ knnQuery st.index [1] (min ((st.index.length : Int)).toNat st.index.length) := by
    rw [hcands]
    exact (List.perm_insertionSort distRel _).mem_iff.mpr
      (List.mem_map.mpr ⟨(l, v), hv, rfl⟩)
  have hfil : searchFilter st.idMap (l, cosineDistance [1] v)
      = some (d, 1 - cosineDistance [1] v) := by
    unfold searchFilter
    rw [dget_eq_some_of_mem_nodup st.idMap l d hnd hmem]
    simp [hd]
  have hres : (d, 1 - cosineDistance [1] v)
      ∈ (knnQuery st.index [1]
          (min ((st.index.length : Int)).toNat st.index.length)).filterMap
        (searchFilter st.idMap) :=
    List.mem_filterMap.mpr ⟨(l, cosineDistance [1] v), hcand, hfil⟩
  exact List.mem_map.mpr ⟨(d, 1 - cosineDistance [1] v),
    (List.perm_insertionSort scoreRel _).mem_iff.mpr hres, rfl⟩

/-- C2 (amended): for every engine state satisfying the dict representation
invariant, and whose shard ids contain neither "shard_" nor ".bin" as a
substring (the load-time file-name mangling strips every occurrence of those
two patterns, so other shard ids do not round-trip — see the counterexample),
after save_all followed by a fresh load_all on the same data_dir the reloaded
get_total_vectors() equals the pre-save value, and every doc_id that some
search can return — that is, every nonempty doc_id in an id-map — is still
returned by a search addressed to its original collection_id and shard_id
(with k = current_count and a unit query); a doc_id equal to "" is never
returned by any search, before or after the save. -/
theorem save_load_roundtrip (e : Engine) (hrep : RepOk e) (hclean : CleanShardIds e) :
    get_total_vectors (loadAll e.embedding_dim e.max_ram_gb (saveAll e))
      = get_total_vectors e ∧
    ∀ c s shards st l d, dget e.colls c = some shards → dget shards s = some st →
      (l, d) ∈ st.idMap → d ≠ "" →
      d ∈ (searchE (loadAll e.embedding_dim e.max_ram_gb (saveAll e)) c [1]
        (st.index.length : Int) (some s)).map Prod.fst := by
  have heq := loadAll_saveAll e hrep hclean
  rw [heq]
  refine ⟨rfl, ?_⟩
  intro c s shards st l d hc hs hmem hd
  have hcol := hrep.2 (c, shards) (mem_of_dget _ _ _ hc)
  have hshard := hcol.2.2 (s, st) (mem_of_dget _ _ _ hs)
  exact searchE_mem_of_idMap e c s shards st l d hc hs hshard.1 hshard.2.1
    hshard.2.2 hmem hd

/-- Witness for save_load_roundtrip on a concrete one-shard engine. -/
theorem save_load_roundtrip_witness :
    get_total_vectors (loadAll engSave.embedding_dim engSave.max_ram_gb (saveAll engSave))
      = get_total_vectors engSave ∧
    "a" ∈ (searchE (loadAll engSave.embedding_dim engSave.max_ram_gb (saveAll engSave))
      "c1" [1] (stSave.index.length : Int) (some "s1")).map Prod.fst := by
  have h := save_load_roundtrip engSave (by unfold RepOk; decide)
    (by unfold CleanShardIds; decide)
  exact ⟨h.1, h.2 "c1" "s1" [("s1", stSave)] stSave 0 "a" (by decide) (by decide)
    (by decide) (by decide)⟩

/-- C2 counterexample: the engine stores one vector under doc_id "a" in shard
"shard_x" of collection "c"; before the save a search addressed to that shard
returns it, but load_all mangles the saved file name shard_shard_x.bin to the
shard id "x", so after save_all plus a fresh load_all the same search returns
nothing (and the reloaded shard also lost its id-map, whose file name
shard_x_map.json is not the one the loader derives). -/
theorem save_load_mangles_shard :
    searchE engMangle "c" [1] 1 (some "shard_x") = [("a", 1)] ∧
    searchE (loadAll engMangle.embedding_dim engMangle.max_ram_gb (saveAll engMangle))
      "c" [1] 1 (some "shard_x") = [] ∧
    get_total_vectors engMangle = 1 := by
  refine ⟨by with_unfolding_all rfl, by with_unfolding_all rfl, rfl⟩

end DvmMiner
